import Mathlib

/-!
# Verification of the ray-tracer rendering engine

A shallow embedding, over the rationals, of the rendering core of the
`ray-tracer` repository.  The `Renderer` and `Image` types are translated
directly from `src/renderer/mod.rs`; the scene / spatial-tree / hitable /
material layer is not part of the sources of this repository snapshot (only
its callers and tests are), so those parts are modelled from the design
specification, as flagged in the corresponding doc comments.

Scalars are modelled as `ℚ` (exact arithmetic standing in for the generic
`Float` parameter of the Rust code).
-/

namespace RayTracer

/-- 3-component vector over `ℚ`, the model of `Vec3<T>`. -/
structure Vec3 where
  x : ℚ
  y : ℚ
  z : ℚ
deriving DecidableEq, Repr

namespace Vec3

/-- The zero vector (`Vec3::new()` in the Rust code yields all zeros). -/
def zero : Vec3 := ⟨0, 0, 0⟩

/-- Componentwise addition. -/
def add (a b : Vec3) : Vec3 := ⟨a.x + b.x, a.y + b.y, a.z + b.z⟩

/-- Componentwise subtraction. -/
def sub (a b : Vec3) : Vec3 := ⟨a.x - b.x, a.y - b.y, a.z - b.z⟩

/-- Scalar multiplication. -/
def smul (k : ℚ) (a : Vec3) : Vec3 := ⟨k * a.x, k * a.y, k * a.z⟩

/-- Division of a vector by a scalar (used by `render_pixel` to average). -/
def divs (a : Vec3) (k : ℚ) : Vec3 := ⟨a.x / k, a.y / k, a.z / k⟩

/-- Componentwise (Hadamard) product: attenuation applied to a color. -/
def hmul (a b : Vec3) : Vec3 := ⟨a.x * b.x, a.y * b.y, a.z * b.z⟩

/-- Absolute-value norm of a color difference.  The test harness sums a
per-pixel norm of color differences; over `ℚ` we use the `ℓ¹` norm (the
spec allows "absolute/Euclidean"), which is zero exactly when the
difference is zero. -/
def anorm (a : Vec3) : ℚ := |a.x| + |a.y| + |a.z|

theorem anorm_nonneg (a : Vec3) : 0 ≤ a.anorm := by
  have hx := abs_nonneg a.x
  have hy := abs_nonneg a.y
  have hz := abs_nonneg a.z
  unfold anorm
  linarith

theorem anorm_sub_self (a : Vec3) : (a.sub a).anorm = 0 := by
  simp [anorm, sub]

end Vec3

/-- A ray: origin plus direction, the model of `Ray<T>`. -/
structure Ray where
  origin : Vec3
  direction : Vec3
deriving DecidableEq, Repr

/-- The point at parameter `t` along a ray: `origin + t * direction`. -/
def Ray.at (r : Ray) (t : ℚ) : Vec3 :=
  r.origin.add (Vec3.smul t r.direction)

/-- Result of a successful intersection, the model of `Hit<T>` in
`src/hit/mod.rs`: point, normal and parameter `t`. -/
structure Hit where
  point : Vec3
  normal : Vec3
  t : ℚ
deriving DecidableEq, Repr

/-- Axis-aligned bounding box given by componentwise min and max corners.
Modelled from the spec: the sources of this snapshot do not include the
spatial-tree module; §4.2 describes per-Actor axis-aligned bounding boxes. -/
structure AABB where
  lo : Vec3
  hi : Vec3
deriving DecidableEq, Repr

/-- Membership of a point in a box (componentwise interval membership). -/
def inBox (p : Vec3) (b : AABB) : Prop :=
  b.lo.x ≤ p.x ∧ p.x ≤ b.hi.x ∧
  b.lo.y ≤ p.y ∧ p.y ≤ b.hi.y ∧
  b.lo.z ≤ p.z ∧ p.z ≤ b.hi.z

instance (p : Vec3) (b : AABB) : Decidable (inBox p b) := by
  unfold inBox; infer_instance

/-- `a` is a sub-box of `b`: every point of `a` lies in `b`. -/
def subBox (a b : AABB) : Prop := ∀ p : Vec3, inBox p a → inBox p b

/-- Union (componentwise min/max hull) of two boxes. -/
def AABB.union (a b : AABB) : AABB :=
  ⟨⟨min a.lo.x b.lo.x, min a.lo.y b.lo.y, min a.lo.z b.lo.z⟩,
   ⟨max a.hi.x b.hi.x, max a.hi.y b.hi.y, max a.hi.z b.hi.z⟩⟩

/-- A box is well-formed when its min corner is componentwise ≤ its max
corner. -/
def AABB.wf (b : AABB) : Prop :=
  b.lo.x ≤ b.hi.x ∧ b.lo.y ≤ b.hi.y ∧ b.lo.z ≤ b.hi.z

theorem subBox_union_left (a b : AABB) : subBox a (a.union b) := by
  intro p hp
  obtain ⟨h1, h2, h3, h4, h5, h6⟩ := hp
  refine ⟨?_, ?_, ?_, ?_, ?_, ?_⟩ <;>
    simp only [AABB.union] <;>
    first
      | exact le_trans (min_le_left _ _) (by assumption)
      | exact le_trans (by assumption) (le_max_left _ _)

theorem subBox_union_right (a b : AABB) : subBox b (a.union b) := by
  intro p hp
  obtain ⟨h1, h2, h3, h4, h5, h6⟩ := hp
  refine ⟨?_, ?_, ?_, ?_, ?_, ?_⟩ <;>
    simp only [AABB.union] <;>
    first
      | exact le_trans (min_le_right _ _) (by assumption)
      | exact le_trans (by assumption) (le_max_right _ _)

theorem subBox_trans {a b c : AABB} (h1 : subBox a b) (h2 : subBox b c) :
    subBox a c := fun p hp => h2 p (h1 p hp)

theorem AABB.wf_union {a b : AABB} (ha : a.wf) (hb : b.wf) : (a.union b).wf := by
  obtain ⟨a1, a2, a3⟩ := ha
  obtain ⟨b1, b2, b3⟩ := hb
  refine ⟨?_, ?_, ?_⟩ <;> simp only [AABB.union] <;>
    [exact le_trans (min_le_left _ _) (le_trans a1 (le_max_left _ _));
     exact le_trans (min_le_left _ _) (le_trans a2 (le_max_left _ _));
     exact le_trans (min_le_left _ _) (le_trans a3 (le_max_left _ _))]

/-- Entry parameter of a single nondegenerate slab `lo ≤ o + t·d ≤ hi`. -/
def slabLo (o d lo hi : ℚ) : ℚ := if 0 < d then (lo - o) / d else (hi - o) / d

/-- Exit parameter of a single nondegenerate slab (companion of `slabLo`). -/
def slabHi (o d lo hi : ℚ) : ℚ := if 0 < d then (hi - o) / d else (lo - o) / d

/-- The slab `[slabLo, slabHi]` is exactly the set of parameters put inside
the axis range by the ray. -/
theorem slab_mem {o d lo hi : ℚ} (hd : d ≠ 0) (s : ℚ) :
    (slabLo o d lo hi ≤ s ∧ s ≤ slabHi o d lo hi) ↔
    (lo ≤ o + s * d ∧ o + s * d ≤ hi) := by
  unfold slabLo slabHi
  rcases lt_trichotomy d 0 with hneg | hzero | hpos
  · have hnp : ¬ (0 < d) := by linarith
    simp only [if_neg hnp]
    rw [div_le_iff_of_neg hneg, le_div_iff_of_neg hneg]
    constructor
    · rintro ⟨h1, h2⟩; constructor <;> nlinarith
    · rintro ⟨h1, h2⟩; constructor <;> nlinarith
  · exact absurd hzero hd
  · simp only [if_pos hpos]
    rw [div_le_iff₀ hpos, le_div_iff₀ hpos]
    constructor
    · rintro ⟨h1, h2⟩; constructor <;> nlinarith
    · rintro ⟨h1, h2⟩; constructor <;> nlinarith

/-- One slab-clipping step of the ray/box test.  Clips the parameter
interval `acc` against the constraint `lo ≤ o + t·d ≤ hi` of a single
axis.  Modelled from the spec (§4.2): the box test intersects per-axis
slabs; a zero direction component ("degenerate" axis) is handled by a
direct containment check instead of a division. -/
def clipAxis (o d lo hi : ℚ) (acc : ℚ × ℚ) : Option (ℚ × ℚ) :=
  if d = 0 then
    if lo ≤ o ∧ o ≤ hi then some acc else none
  else
    if max acc.1 (slabLo o d lo hi) ≤ min acc.2 (slabHi o d lo hi) then
      some (max acc.1 (slabLo o d lo hi), min acc.2 (slabHi o d lo hi))
    else none

/-- Executable ray/box intersection test on the parameter window
`[tmin, tmax]`: intersect the three axis slabs with the window and check
nonemptiness.  Modelled from the spec (§4.2). -/
def rayMeetsBox (r : Ray) (b : AABB) (tmin tmax : ℚ) : Bool :=
  if tmin ≤ tmax then
    match clipAxis r.origin.x r.direction.x b.lo.x b.hi.x (tmin, tmax) with
    | none => false
    | some acc1 =>
      match clipAxis r.origin.y r.direction.y b.lo.y b.hi.y acc1 with
      | none => false
      | some acc2 =>
        match clipAxis r.origin.z r.direction.z b.lo.z b.hi.z acc2 with
        | none => false
        | some _ => true
  else false


/-- Membership characterization of a successful clipping step: `t` lies in
the clipped interval exactly when it lies in the incoming interval and
satisfies the axis constraint. -/
theorem clipAxis_some_iff {o d lo hi : ℚ} {acc res : ℚ × ℚ}
    (h : clipAxis o d lo hi acc = some res) (t : ℚ) :
    (res.1 ≤ t ∧ t ≤ res.2) ↔
    (acc.1 ≤ t ∧ t ≤ acc.2 ∧ lo ≤ o + t * d ∧ o + t * d ≤ hi) := by
  unfold clipAxis at h
  by_cases hd : d = 0
  · rw [if_pos hd] at h
    by_cases hc : lo ≤ o ∧ o ≤ hi
    · rw [if_pos hc] at h
      obtain rfl : acc = res := Option.some.inj h
      subst hd
      constructor
      · rintro ⟨h1, h2⟩
        refine ⟨h1, h2, ?_, ?_⟩ <;> simp only [mul_zero, add_zero] <;>
          [exact hc.1; exact hc.2]
      · rintro ⟨h1, h2, _, _⟩; exact ⟨h1, h2⟩
    · rw [if_neg hc] at h
      exact Option.noConfusion h
  · rw [if_neg hd] at h
    by_cases hle : max acc.1 (slabLo o d lo hi) ≤ min acc.2 (slabHi o d lo hi)
    · rw [if_pos hle] at h
      obtain rfl :
          (max acc.1 (slabLo o d lo hi), min acc.2 (slabHi o d lo hi)) = res :=
        Option.some.inj h
      have key := @slab_mem o d lo hi hd
      simp only [max_le_iff, le_min_iff]
      constructor
      · rintro ⟨⟨h1, h2⟩, h3, h4⟩
        exact ⟨h1, h3, ((key t).mp ⟨h2, h4⟩).1, ((key t).mp ⟨h2, h4⟩).2⟩
      · rintro ⟨h1, h2, h3, h4⟩
        obtain ⟨k1, k2⟩ := (key t).mpr ⟨h3, h4⟩
        exact ⟨⟨h1, k1⟩, h2, k2⟩
    · rw [if_neg hle] at h
      exact Option.noConfusion h


/-- A failed clipping step certifies that no parameter satisfies both the
incoming interval and the axis constraint. -/
theorem clipAxis_none {o d lo hi : ℚ} {acc : ℚ × ℚ}
    (h : clipAxis o d lo hi acc = none) (t : ℚ) :
    ¬ (acc.1 ≤ t ∧ t ≤ acc.2 ∧ lo ≤ o + t * d ∧ o + t * d ≤ hi) := by
  unfold clipAxis at h
  by_cases hd : d = 0
  · rw [if_pos hd] at h
    by_cases hc : lo ≤ o ∧ o ≤ hi
    · rw [if_pos hc] at h
      exact Option.noConfusion h
    · subst hd
      rintro ⟨_, _, h3, h4⟩
      exact hc ⟨by simpa using h3, by simpa using h4⟩
  · rw [if_neg hd] at h
    by_cases hle : max acc.1 (slabLo o d lo hi) ≤ min acc.2 (slabHi o d lo hi)
    · rw [if_pos hle] at h
      exact Option.noConfusion h
    · rintro ⟨h1, h2, h3, h4⟩
      apply hle
      have key := (@slab_mem o d lo hi hd t).mpr ⟨h3, h4⟩
      exact le_trans (max_le h1 key.1) (le_min h2 key.2)


/-- `clipAxis` never produces an empty interval. -/
theorem clipAxis_some_le {o d lo hi : ℚ} {acc : ℚ × ℚ} (hacc : acc.1 ≤ acc.2)
    {res : ℚ × ℚ} (h : clipAxis o d lo hi acc = some res) : res.1 ≤ res.2 := by
  unfold clipAxis at h
  by_cases hd : d = 0
  · rw [if_pos hd] at h
    by_cases hc : lo ≤ o ∧ o ≤ hi
    · rw [if_pos hc] at h
      obtain rfl : acc = res := Option.some.inj h
      exact hacc
    · rw [if_neg hc] at h
      exact Option.noConfusion h
  · rw [if_neg hd] at h
    by_cases hle : max acc.1 (slabLo o d lo hi) ≤ min acc.2 (slabHi o d lo hi)
    · rw [if_pos hle] at h
      obtain rfl :
          (max acc.1 (slabLo o d lo hi), min acc.2 (slabHi o d lo hi)) = res :=
        Option.some.inj h
      exact hle
    · rw [if_neg hle] at h
      exact Option.noConfusion h


/-- Geometric characterization of the box test: success on `[tmin, tmax]`
exactly when some parameter `t` in the window puts the ray point inside
the box. -/
theorem rayMeetsBox_iff (r : Ray) (b : AABB) (tmin tmax : ℚ) :
    rayMeetsBox r b tmin tmax = true ↔
    ∃ t, tmin ≤ t ∧ t ≤ tmax ∧ inBox (r.at t) b := by
  have hpt : ∀ t : ℚ, inBox (r.at t) b ↔
      (b.lo.x ≤ r.origin.x + t * r.direction.x ∧
       r.origin.x + t * r.direction.x ≤ b.hi.x ∧
       b.lo.y ≤ r.origin.y + t * r.direction.y ∧
       r.origin.y + t * r.direction.y ≤ b.hi.y ∧
       b.lo.z ≤ r.origin.z + t * r.direction.z ∧
       r.origin.z + t * r.direction.z ≤ b.hi.z) := by
    intro t
    simp [inBox, Ray.at, Vec3.add, Vec3.smul, mul_comm]
  unfold rayMeetsBox
  by_cases hw : tmin ≤ tmax
  · simp only [if_pos hw]
    rcases h1 : clipAxis r.origin.x r.direction.x b.lo.x b.hi.x (tmin, tmax) with _ | acc1
    · simp only [h1]
      constructor
      · intro h; exact absurd h (by simp)
      · rintro ⟨t, ht1, ht2, hin⟩
        rw [hpt t] at hin
        exact absurd (And.intro ht1 (And.intro ht2 (And.intro hin.1 hin.2.1)))
          (clipAxis_none h1 t)
    · simp only [h1]
      rcases h2 : clipAxis r.origin.y r.direction.y b.lo.y b.hi.y acc1 with _ | acc2
      · simp only [h2]
        constructor
        · intro h; exact absurd h (by simp)
        · rintro ⟨t, ht1, ht2, hin⟩
          rw [hpt t] at hin
          have hm1 : acc1.1 ≤ t ∧ t ≤ acc1.2 :=
            (clipAxis_some_iff h1 t).mpr ⟨ht1, ht2, hin.1, hin.2.1⟩
          exact absurd
            (And.intro hm1.1 (And.intro hm1.2 (And.intro hin.2.2.1 hin.2.2.2.1)))
            (clipAxis_none h2 t)
      · simp only [h2]
        rcases h3 : clipAxis r.origin.z r.direction.z b.lo.z b.hi.z acc2 with _ | acc3
        · simp only [h3]
          constructor
          · intro h; exact absurd h (by simp)
          · rintro ⟨t, ht1, ht2, hin⟩
            rw [hpt t] at hin
            have hm1 : acc1.1 ≤ t ∧ t ≤ acc1.2 :=
              (clipAxis_some_iff h1 t).mpr ⟨ht1, ht2, hin.1, hin.2.1⟩
            have hm2 : acc2.1 ≤ t ∧ t ≤ acc2.2 :=
              (clipAxis_some_iff h2 t).mpr ⟨hm1.1, hm1.2, hin.2.2.1, hin.2.2.2.1⟩
            exact absurd
              (And.intro hm2.1 (And.intro hm2.2
                (And.intro hin.2.2.2.2.1 hin.2.2.2.2.2)))
              (clipAxis_none h3 t)
        · simp only [h3, true_iff]
          have e1 : acc1.1 ≤ acc1.2 := clipAxis_some_le hw h1
          have e2 : acc2.1 ≤ acc2.2 := clipAxis_some_le e1 h2
          have e3 : acc3.1 ≤ acc3.2 := clipAxis_some_le e2 h3
          refine ⟨acc3.1, ?_⟩
          have hm3 := (clipAxis_some_iff h3 acc3.1).mp ⟨le_refl _, e3⟩
          have hm2 := (clipAxis_some_iff h2 acc3.1).mp ⟨hm3.1, hm3.2.1⟩
          have hm1 := (clipAxis_some_iff h1 acc3.1).mp ⟨hm2.1, hm2.2.1⟩
          refine ⟨hm1.1, hm1.2.1, ?_⟩
          rw [hpt acc3.1]
          exact ⟨hm1.2.2.1, hm1.2.2.2, hm2.2.2.1, hm2.2.2.2,
            hm3.2.2.1, hm3.2.2.2⟩
  · simp only [if_neg hw]
    constructor
    · intro h; exact absurd h (by simp)
    · rintro ⟨t, ht1, ht2, _⟩
      exact absurd (le_trans ht1 ht2) hw

/-- Monotonicity of the box test in the box: a sub-box that meets the ray
forces the enclosing box to meet it too. -/
theorem rayMeetsBox_mono {r : Ray} {a b : AABB} {tmin tmax : ℚ}
    (hsub : subBox a b) (h : rayMeetsBox r a tmin tmax = true) :
    rayMeetsBox r b tmin tmax = true := by
  rw [rayMeetsBox_iff] at h ⊢
  obtain ⟨t, h1, h2, h3⟩ := h
  exact ⟨t, h1, h2, hsub _ h3⟩


/-- Random source, modelled from the spec (§6): a stream of rational draws
standing in for "uniform floats in `[0,1)` on demand".  An exhausted
stream keeps yielding `0`. -/
abbrev Rng := List ℚ

/-- Draw the next value from the random source. -/
def Rng.next : Rng → ℚ × Rng
  | [] => (0, [])
  | x :: xs => (x, xs)

/-- Outcome of a material interaction, modelled from the spec (§4.3): a
material either emits a terminal color or scatters a new ray with an
attenuation color. -/
inductive MatResult where
  | emit (color : Vec3)
  | scatter (ray : Ray) (attenuation : Vec3)

/-- A material, modelled from the spec (§4.3) as an abstract consumer of
the incoming ray and the `Hit`, threading the random source. -/
abbrev Material := Ray → Hit → Rng → MatResult × Rng

/-- An actor's intersection behaviour together with its bounding box, as
needed by the spatial trees.  Modelled from the spec: `Actor` pairs a
`Hitable` with a `Material` (`src/actor/mod.rs`); the `Hitable` geometry
itself is not among the sources of this snapshot, so it is abstracted by
`tcand r tmin`, the nearest hit of the actor along `r` past `tmin`
(§3: a `Hitable` "produces at most one Hit (the nearest within the
interval) or none"; §4.2: the trees use per-Actor axis-aligned bounding
boxes).  The bundled facts are the spec-level contracts: a returned hit
lies strictly past `tmin` (§3: hits are valid only inside the query
window) and on the actor, hence inside the actor's bounding box. -/
structure TActor where
  tcand : Ray → ℚ → Option Hit
  box : AABB
  mat : Material
  t_gt : ∀ r tmin h, tcand r tmin = some h → tmin < h.t
  hit_in_box : ∀ r tmin h, tcand r tmin = some h → inBox (r.at h.t) box
  box_wf : box.wf

/-- An actor labelled with its position in the Scene's actor list. -/
structure IActor where
  idx : ℕ
  actor : TActor

/-- Windowed intersection query against one actor: the nearest hit past
`tmin`, kept only when it does not exceed `tmax`.  Modelled from the spec
(§4.1): `hit(ray, t_min, t_max)` returns the nearest hit within the
window or none. -/
def actorHit (a : TActor) (r : Ray) (tmin tmax : ℚ) : Option Hit :=
  match a.tcand r tmin with
  | none => none
  | some h => if h.t ≤ tmax then some h else none

/-- A nearest-hit candidate: the actor that was hit plus the `Hit`. -/
structure Cand where
  ia : IActor
  hit : Hit

/-- Strict "is a better candidate" order: smaller `t`, ties broken by the
smaller actor index.  The spec (§9) leaves tie-breaking free subject only
to all tree variants agreeing; the index rule is the uniform policy of
this model. -/
def candLt (c b : Cand) : Prop :=
  c.hit.t < b.hit.t ∨ (c.hit.t = b.hit.t ∧ c.ia.idx < b.ia.idx)

instance (c b : Cand) : Decidable (candLt c b) := by
  unfold candLt; infer_instance

theorem candLt_asymm {a b : Cand} (h : candLt a b) : ¬ candLt b a := by
  rcases h with h | ⟨h1, h2⟩
  · rintro (h3 | ⟨h3, h4⟩) <;> linarith
  · rintro (h3 | ⟨h3, h4⟩)
    · linarith
    · omega

theorem candLt_total_of_ne {a b : Cand} (h : a.ia.idx ≠ b.ia.idx) :
    candLt a b ∨ candLt b a := by
  rcases lt_trichotomy a.hit.t b.hit.t with ht | ht | ht
  · exact Or.inl (Or.inl ht)
  · rcases Nat.lt_or_ge a.ia.idx b.ia.idx with hi | hi
    · exact Or.inl (Or.inr ⟨ht, hi⟩)
    · exact Or.inr (Or.inr ⟨ht.symm, by omega⟩)
  · exact Or.inr (Or.inl ht)

theorem candLt_trans {a b c : Cand} (h1 : candLt a b) (h2 : candLt b c) :
    candLt a c := by
  rcases h1 with h1 | ⟨h1, h1i⟩ <;> rcases h2 with h2 | ⟨h2, h2i⟩
  · exact Or.inl (by linarith)
  · exact Or.inl (by linarith)
  · exact Or.inl (by linarith)
  · exact Or.inr ⟨by linarith, by omega⟩

/-- Fold one optional candidate into the current best: keep the better
one, the incumbent surviving ties that the index rule does not break. -/
def updateBest (b : Option Cand) (c : Option Cand) : Option Cand :=
  match c with
  | none => b
  | some c =>
    match b with
    | none => some c
    | some b0 => if candLt c b0 then some c else some b0

theorem updateBest_none (b : Option Cand) : updateBest b none = b := rfl

theorem updateBest_none_some (c : Cand) : updateBest none (some c) = some c := rfl

theorem updateBest_some_some (b0 c : Cand) :
    updateBest (some b0) (some c) = if candLt c b0 then some c else some b0 := rfl

/-- The candidate an actor contributes on the full query window. -/
def fullCand (r : Ray) (tmin tmax : ℚ) (ia : IActor) : Option Cand :=
  (actorHit ia.actor r tmin tmax).map (fun h => ⟨ia, h⟩)

/-- One step of the reference (Linear) scan: fold the actor's candidate on
the full window into the current best. -/
def step0 (r : Ray) (tmin tmax : ℚ) (b : Option Cand) (ia : IActor) :
    Option Cand :=
  updateBest b (fullCand r tmin tmax ia)

/-- The Linear tree variant, modelled from the spec (§4.2): no pruning;
test every Actor in list order and keep the minimum-`t` hit. -/
def queryLinear (actors : List IActor) (r : Ray) (tmin tmax : ℚ) :
    Option Cand :=
  actors.foldl (step0 r tmin tmax) none

/-- Current effective upper bound of the query window: `t_max` tightened
to the best candidate found so far (spec §4.2). -/
def effMax (tmax : ℚ) (b : Option Cand) : ℚ :=
  match b with
  | none => tmax
  | some c => min tmax c.hit.t

/-- One step of a tree traversal: test the actor on the tightened window
and fold the result into the current best. -/
def stepA (r : Ray) (tmin tmax : ℚ) (b : Option Cand) (ia : IActor) :
    Option Cand :=
  updateBest b ((actorHit ia.actor r tmin (effMax tmax b)).map (fun h => ⟨ia, h⟩))

/-- Tightening the window is sound: testing an actor on the tightened
window and folding is the same as folding its full-window candidate. -/
theorem stepA_eq_step0 (r : Ray) (tmin tmax : ℚ) (b : Option Cand)
    (ia : IActor) : stepA r tmin tmax b ia = step0 r tmin tmax b ia := by
  unfold stepA step0 fullCand actorHit
  rcases b with _ | b0
  · rfl
  · rcases ht : ia.actor.tcand r tmin with _ | h
    · rfl
    · simp only [effMax]
      by_cases h1 : h.t ≤ min tmax b0.hit.t
      · rw [if_pos h1, if_pos (le_trans h1 (min_le_left _ _))]
      · rw [if_neg h1]
        by_cases h2 : h.t ≤ tmax
        · rw [if_pos h2]
          have hbt : b0.hit.t < h.t := by
            rw [le_min_iff] at h1
            push_neg at h1
            exact h1 h2
          show some b0 = updateBest (some b0) (some ⟨ia, h⟩)
          rw [updateBest_some_some, if_neg]
          rintro (h4 | ⟨h4, _⟩) <;> simp only at h4 <;> linarith
        · rw [if_neg h2]

/-- A fold step with a contribution that never beats the incumbent leaves
the incumbent unchanged over a whole list. -/
theorem foldl_step0_const (r : Ray) (tmin tmax : ℚ) {l : List IActor}
    {b : Option Cand} (hstep : ∀ ia ∈ l, step0 r tmin tmax b ia = b) :
    l.foldl (step0 r tmin tmax) b = b := by
  induction l with
  | nil => rfl
  | cons x xs ih =>
    rw [List.foldl_cons, hstep x (List.mem_cons_self x xs)]
    exact ih (fun ia hia => hstep ia (List.mem_cons_of_mem x hia))

/-- Folding two candidates with distinct actor indices commutes. -/
theorem updateBest_comm {c1 c2 : Cand} (hne : c1.ia.idx ≠ c2.ia.idx)
    (b : Option Cand) :
    updateBest (updateBest b (some c1)) (some c2) =
    updateBest (updateBest b (some c2)) (some c1) := by
  rcases b with _ | b0
  · rw [updateBest_none_some, updateBest_none_some,
      updateBest_some_some, updateBest_some_some]
    rcases candLt_total_of_ne hne with h | h
    · rw [if_neg (candLt_asymm h), if_pos h]
    · rw [if_pos h, if_neg (candLt_asymm h)]
  · rw [updateBest_some_some, updateBest_some_some]
    by_cases h1 : candLt c1 b0 <;> by_cases h2 : candLt c2 b0
    · rw [if_pos h1, if_pos h2, updateBest_some_some, updateBest_some_some]
      rcases candLt_total_of_ne hne with h | h
      · rw [if_neg (candLt_asymm h), if_pos h]
      · rw [if_pos h, if_neg (candLt_asymm h)]
    · rw [if_pos h1, if_neg h2, updateBest_some_some, updateBest_some_some]
      have hnc : ¬ candLt c2 c1 := fun hc => h2 (candLt_trans hc h1)
      rw [if_neg hnc, if_pos h1]
    · rw [if_neg h1, if_pos h2, updateBest_some_some, updateBest_some_some]
      have hnc : ¬ candLt c1 c2 := fun hc => h1 (candLt_trans hc h2)
      rw [if_pos h2, if_neg hnc]
    · rw [if_neg h1, if_neg h2, updateBest_some_some, updateBest_some_some,
        if_neg h2, if_neg h1]

/-- Two Linear-scan steps on actors with distinct indices commute. -/
theorem step0_swap (r : Ray) (tmin tmax : ℚ) {x y : IActor}
    (hxy : x.idx ≠ y.idx) (b : Option Cand) :
    step0 r tmin tmax (step0 r tmin tmax b x) y =
    step0 r tmin tmax (step0 r tmin tmax b y) x := by
  unfold step0
  rcases hx : fullCand r tmin tmax x with _ | cx
  · simp only [updateBest_none]
  · rcases hy : fullCand r tmin tmax y with _ | cy
    · simp only [updateBest_none]
    · have hcx : cx.ia = x := by
        unfold fullCand at hx
        obtain ⟨hh, -, hmk⟩ := Option.map_eq_some'.mp hx
        rw [← hmk]
      have hcy : cy.ia = y := by
        unfold fullCand at hy
        obtain ⟨hh, -, hmk⟩ := Option.map_eq_some'.mp hy
        rw [← hmk]
      exact updateBest_comm (by rw [hcx, hcy]; exact hxy) b

/-- Folding the Linear step over a permuted actor list with pairwise
distinct indices yields the same best candidate. -/
theorem foldl_step0_perm (r : Ray) (tmin tmax : ℚ) {l1 l2 : List IActor}
    (hp : List.Perm l1 l2) :
    l1.Pairwise (fun a b => a.idx ≠ b.idx) → ∀ b : Option Cand,
      l1.foldl (step0 r tmin tmax) b = l2.foldl (step0 r tmin tmax) b := by
  induction hp with
  | nil => intro _ _; rfl
  | cons x hp ih =>
    intro hnd b
    simp only [List.foldl_cons]
    exact ih hnd.of_cons _
  | swap x y l =>
    intro hnd b
    obtain ⟨hy, -⟩ := List.pairwise_cons.mp hnd
    have hyx : y.idx ≠ x.idx := hy x (List.mem_cons_self x l)
    simp only [List.foldl_cons]
    rw [step0_swap r tmin tmax hyx.symm b]
  | trans p1 p2 ih1 ih2 =>
    intro hnd b
    rw [ih1 hnd b]
    exact ih2 ((p1.pairwise_iff (fun h => Ne.symm h)).mp hnd) b

/-- Facts about a full-window candidate: its `t` lies in `(tmin, tmax]`,
the hit point lies in the actor's bounding box, and it records the actor
that produced it. -/
theorem fullCand_props {r : Ray} {tmin tmax : ℚ} {ia : IActor} {c : Cand}
    (h : fullCand r tmin tmax ia = some c) :
    tmin < c.hit.t ∧ c.hit.t ≤ tmax ∧
    inBox (r.at c.hit.t) ia.actor.box ∧ c.ia = ia := by
  unfold fullCand at h
  obtain ⟨hh, hah, hmk⟩ := Option.map_eq_some'.mp h
  unfold actorHit at hah
  rcases ht : ia.actor.tcand r tmin with _ | h0
  · rw [ht] at hah
    exact Option.noConfusion hah
  · rw [ht] at hah
    have hah2 : (if h0.t ≤ tmax then some h0 else none) = some hh := hah
    by_cases hle : h0.t ≤ tmax
    · rw [if_pos hle] at hah2
      obtain rfl := Option.some.inj hah2
      subst hmk
      exact ⟨ia.actor.t_gt r tmin h0 ht, hle,
        ia.actor.hit_in_box r tmin h0 ht, rfl⟩
    · rw [if_neg hle] at hah2
      exact Option.noConfusion hah2

/-- Pruning is sound pointwise: when the ray misses an enclosing box on
the tightened window, folding the full-window candidate of any actor
inside that box leaves the current best unchanged. -/
theorem step0_prune {r : Ray} {tmin tmax : ℚ} {nbox : AABB}
    {b : Option Cand} {ia : IActor} (hsub : subBox ia.actor.box nbox)
    (hmiss : rayMeetsBox r nbox tmin (effMax tmax b) = false) :
    step0 r tmin tmax b ia = b := by
  unfold step0
  rcases hc : fullCand r tmin tmax ia with _ | c
  · rw [updateBest_none]
  · obtain ⟨hgt, hle, hbox, -⟩ := fullCand_props hc
    rcases b with _ | b0
    · exfalso
      have htrue : rayMeetsBox r nbox tmin (effMax tmax none) = true := by
        rw [rayMeetsBox_iff]
        exact ⟨c.hit.t, le_of_lt hgt, hle, hsub _ hbox⟩
      rw [htrue] at hmiss
      exact Bool.noConfusion hmiss
    · by_cases hcb : c.hit.t ≤ min tmax b0.hit.t
      · exfalso
        have htrue : rayMeetsBox r nbox tmin (effMax tmax (some b0)) = true := by
          rw [rayMeetsBox_iff]
          exact ⟨c.hit.t, le_of_lt hgt, hcb, hsub _ hbox⟩
        rw [htrue] at hmiss
        exact Bool.noConfusion hmiss
      · have hbt : b0.hit.t < c.hit.t := by
          rw [le_min_iff] at hcb
          push_neg at hcb
          exact hcb hle
        rw [updateBest_some_some, if_neg]
        rintro (h4 | ⟨h4, -⟩) <;> linarith

mutual
/-- A pruned-traversal tree node: its bounding box, the actors stored at
the node, and its child subtrees.  Modelled from the spec (§4.2): both
the Binary (BVH) and Oct variants are trees of bounding volumes whose
query tests the node's own actors and descends only into children whose
box the ray intersects on the current window. -/
inductive PTree where
  | node (box : AABB) (here : List IActor) (children : PForest)

/-- A list of sibling subtrees (a separate type so that structural
recursion over the nested tree stays elementary). -/
inductive PForest where
  | nil
  | cons (t : PTree) (f : PForest)
end

mutual
/-- All actors stored in a subtree, in traversal order. -/
def PTree.actors : PTree → List IActor
  | .node _ here cs => here ++ PForest.actors cs

/-- All actors stored in a forest, in traversal order. -/
def PForest.actors : PForest → List IActor
  | .nil => []
  | .cons t f => PTree.actors t ++ PForest.actors f
end

mutual
/-- Structural invariant of a pruned-traversal tree: every actor stored
anywhere in a subtree has its bounding box contained in that subtree's
node box (spec §4.2: node boxes enclose their actors' boxes). -/
def PTree.inv : PTree → Prop
  | .node box here cs =>
    (∀ ia ∈ here ++ PForest.actors cs, subBox ia.actor.box box) ∧
    PForest.inv cs

/-- Invariant of a forest: all subtrees satisfy the tree invariant. -/
def PForest.inv : PForest → Prop
  | .nil => True
  | .cons t f => PTree.inv t ∧ PForest.inv f
end

mutual
/-- Pruned nearest-hit traversal, modelled from the spec (§4.2): skip the
whole subtree when the ray misses the node box on the window tightened by
the best candidate found so far; otherwise test the node's actors on the
tightened window and recurse into the children. -/
def PTree.query (r : Ray) (tmin tmax : ℚ) : PTree → Option Cand → Option Cand
  | .node box here cs, b =>
    if rayMeetsBox r box tmin (effMax tmax b) then
      PForest.query r tmin tmax cs (here.foldl (stepA r tmin tmax) b)
    else b

/-- Traversal of the sibling subtrees in order, threading the best
candidate. -/
def PForest.query (r : Ray) (tmin tmax : ℚ) : PForest → Option Cand → Option Cand
  | .nil, b => b
  | .cons t f, b => PForest.query r tmin tmax f (PTree.query r tmin tmax t b)
end

mutual
/-- Master equivalence: on an invariant-satisfying tree, the pruned
traversal computes exactly the Linear fold of the full-window candidates
of the actors it stores. -/
theorem PTree.query_eq (r : Ray) (tmin tmax : ℚ) :
    ∀ (t : PTree), PTree.inv t → ∀ b : Option Cand,
      PTree.query r tmin tmax t b =
      (PTree.actors t).foldl (step0 r tmin tmax) b
  | .node box here cs, hinv, b => by
    rw [PTree.query, PTree.actors]
    by_cases hbox : rayMeetsBox r box tmin (effMax tmax b) = true
    · rw [if_pos hbox]
      have hsa : stepA r tmin tmax = step0 r tmin tmax :=
        funext fun b2 => funext fun ia => stepA_eq_step0 r tmin tmax b2 ia
      rw [hsa, PForest.forest_query_eq r tmin tmax cs hinv.2, List.foldl_append]
    · rw [if_neg hbox]
      have hmiss : rayMeetsBox r box tmin (effMax tmax b) = false :=
        Bool.eq_false_iff.mpr hbox
      exact (foldl_step0_const r tmin tmax (fun ia hia =>
        step0_prune (hinv.1 ia hia) hmiss)).symm

/-- Forest version of the master equivalence. -/
theorem PForest.forest_query_eq (r : Ray) (tmin tmax : ℚ) :
    ∀ (f : PForest), PForest.inv f → ∀ b : Option Cand,
      PForest.query r tmin tmax f b =
      (PForest.actors f).foldl (step0 r tmin tmax) b
  | .nil, _, b => rfl
  | .cons t f, hinv, b => by
    rw [PForest.query, PForest.actors, List.foldl_append,
      PTree.query_eq r tmin tmax t hinv.1, PForest.forest_query_eq r tmin tmax f hinv.2]
end

/-- Fold the bounding boxes of a list of actors onto an initial box. -/
def foldUnion (init : AABB) (l : List IActor) : AABB :=
  l.foldl (fun b ia => b.union ia.actor.box) init

theorem subBox_refl (a : AABB) : subBox a a := fun _ hp => hp

theorem subBox_foldUnion_init (init : AABB) (l : List IActor) :
    subBox init (foldUnion init l) := by
  induction l generalizing init with
  | nil => exact subBox_refl init
  | cons a l ih =>
    exact subBox_trans (subBox_union_left init a.actor.box) (ih _)

theorem subBox_foldUnion_mem (init : AABB) {l : List IActor} {ia : IActor}
    (hmem : ia ∈ l) : subBox ia.actor.box (foldUnion init l) := by
  induction l generalizing init with
  | nil => exact absurd hmem (List.not_mem_nil ia)
  | cons a l ih =>
    rcases List.mem_cons.mp hmem with rfl | hmem2
    · exact subBox_trans (subBox_union_right init ia.actor.box)
        (subBox_foldUnion_init _ l)
    · exact ih (init.union a.actor.box) hmem2

/-- Hull of the bounding boxes of a list of actors, modelled from the spec
(§4.2): a BVH node's box is the union of its actors' boxes. -/
def unionBoxes : List IActor → AABB
  | [] => ⟨Vec3.zero, Vec3.zero⟩
  | a :: l => foldUnion a.actor.box l

theorem subBox_unionBoxes {l : List IActor} {ia : IActor} (hmem : ia ∈ l) :
    subBox ia.actor.box (unionBoxes l) := by
  rcases l with _ | ⟨a, l⟩
  · exact absurd hmem (List.not_mem_nil ia)
  · rcases List.mem_cons.mp hmem with rfl | hmem2
    · exact subBox_foldUnion_init _ l
    · exact subBox_foldUnion_mem _ hmem2

/-- Centroid of an actor's bounding box (spec §4.2: BVH splitting sorts by
centroid). -/
def centroid (ia : IActor) : Vec3 :=
  ⟨(ia.actor.box.lo.x + ia.actor.box.hi.x) / 2,
   (ia.actor.box.lo.y + ia.actor.box.hi.y) / 2,
   (ia.actor.box.lo.z + ia.actor.box.hi.z) / 2⟩

/-- Centroid coordinate along a numbered axis (0 = x, 1 = y, 2 = z). -/
def centroidAxis (ax : ℕ) (ia : IActor) : ℚ :=
  if ax = 0 then (centroid ia).x else if ax = 1 then (centroid ia).y else (centroid ia).z

/-- Largest value of a key over a list of actors, given a seed. -/
def foldMaxKey (key : IActor → ℚ) (seed : ℚ) (l : List IActor) : ℚ :=
  l.foldl (fun m ia => max m (key ia)) seed

/-- Smallest value of a key over a list of actors, given a seed. -/
def foldMinKey (key : IActor → ℚ) (seed : ℚ) (l : List IActor) : ℚ :=
  l.foldl (fun m ia => min m (key ia)) seed

/-- Spread (max minus min) of a key over a list of actors. -/
def keySpread (key : IActor → ℚ) : List IActor → ℚ
  | [] => 0
  | a :: l => foldMaxKey key (key a) l - foldMinKey key (key a) l

/-- Axis of greatest centroid spread (spec §4.2), preferring x over y over
z on ties. -/
def widestAxis (l : List IActor) : ℕ :=
  let sx := keySpread (centroidAxis 0) l
  let sy := keySpread (centroidAxis 1) l
  let sz := keySpread (centroidAxis 2) l
  if sy ≤ sx ∧ sz ≤ sx then 0 else if sz ≤ sy then 1 else 2

/-- Ordered insertion by key (stable insertion sort, used to model the
spec's sort-by-centroid). -/
def insertByKey (key : IActor → ℚ) (a : IActor) : List IActor → List IActor
  | [] => [a]
  | b :: l => if key a ≤ key b then a :: b :: l else b :: insertByKey key a l

/-- Insertion sort by key. -/
def sortByKey (key : IActor → ℚ) : List IActor → List IActor
  | [] => []
  | a :: l => insertByKey key a (sortByKey key l)

theorem insertByKey_perm (key : IActor → ℚ) (a : IActor) (l : List IActor) :
    List.Perm (insertByKey key a l) (a :: l) := by
  induction l with
  | nil => exact List.Perm.refl _
  | cons b l ih =>
    rw [insertByKey]
    by_cases hk : key a ≤ key b
    · rw [if_pos hk]
    · rw [if_neg hk]
      exact List.Perm.trans (List.Perm.cons b ih) (List.Perm.swap a b l)

theorem sortByKey_perm (key : IActor → ℚ) (l : List IActor) :
    List.Perm (sortByKey key l) l := by
  induction l with
  | nil => exact List.Perm.refl _
  | cons a l ih =>
    rw [sortByKey]
    exact List.Perm.trans (insertByKey_perm key a _) (List.Perm.cons a ih)

/-- The Binary (BVH) tree builder, modelled from the spec (§4.2): a node
with at most one actor is a leaf; otherwise sort the actors by centroid
along the axis of greatest centroid spread, split at the median, and
recurse; each node's box is the hull of its actors' boxes.  `fuel` (the
list length at the root suffices) only bounds the recursion; exhausted
fuel degenerates to a flat leaf. -/
def buildBvh : ℕ → List IActor → PTree
  | _, [] => .node ⟨Vec3.zero, Vec3.zero⟩ [] .nil
  | _, [a] => .node a.actor.box [a] .nil
  | 0, a :: b :: rest => .node (unionBoxes (a :: b :: rest)) (a :: b :: rest) .nil
  | fuel + 1, a :: b :: rest =>
    let sorted := sortByKey (centroidAxis (widestAxis (a :: b :: rest))) (a :: b :: rest)
    let k := sorted.length / 2
    .node (unionBoxes (a :: b :: rest)) []
      (.cons (buildBvh fuel (sorted.take k))
        (.cons (buildBvh fuel (sorted.drop k)) .nil))

/-- The BVH stores exactly the actors it was built from. -/
theorem buildBvh_actors_perm :
    ∀ (fuel : ℕ) (l : List IActor), List.Perm (PTree.actors (buildBvh fuel l)) l := by
  intro fuel
  induction fuel with
  | zero =>
    intro l
    rcases l with _ | ⟨a, _ | ⟨b, rest⟩⟩ <;>
      simp [buildBvh, PTree.actors, PForest.actors]
  | succ fuel ih =>
    intro l
    rcases l with _ | ⟨a, _ | ⟨b, rest⟩⟩
    · simp [buildBvh, PTree.actors, PForest.actors]
    · simp [buildBvh, PTree.actors, PForest.actors]
    · rw [buildBvh]
      simp only [PTree.actors, PForest.actors, List.nil_append, List.append_nil]
      refine List.Perm.trans (List.Perm.append (ih _) (ih _)) ?_
      rw [List.take_append_drop]
      exact sortByKey_perm _ _

/-- The BVH satisfies the pruned-traversal invariant. -/
theorem buildBvh_inv :
    ∀ (fuel : ℕ) (l : List IActor), PTree.inv (buildBvh fuel l) := by
  intro fuel
  induction fuel with
  | zero =>
    intro l
    rcases l with _ | ⟨a, _ | ⟨b, rest⟩⟩
    · exact ⟨by simp [PForest.actors], trivial⟩
    · refine ⟨?_, trivial⟩
      intro ia hia
      simp [PForest.actors] at hia
      subst hia
      exact subBox_refl _
    · refine ⟨?_, trivial⟩
      intro ia hia
      simp only [PForest.actors, List.append_nil] at hia
      exact subBox_unionBoxes hia
  | succ fuel ih =>
    intro l
    rcases l with _ | ⟨a, _ | ⟨b, rest⟩⟩
    · exact ⟨by simp [PForest.actors], trivial⟩
    · refine ⟨?_, trivial⟩
      intro ia hia
      simp [PForest.actors] at hia
      subst hia
      exact subBox_refl _
    · rw [buildBvh]
      refine ⟨?_, ih _, ih _, trivial⟩
      intro ia hia
      simp only [PForest.actors, List.nil_append, List.append_nil,
        List.mem_append] at hia
      have hmem : ia ∈ a :: b :: rest := by
        rcases hia with hia | hia
        · exact (sortByKey_perm _ _).mem_iff.mp
            (List.mem_of_mem_take ((buildBvh_actors_perm fuel _).mem_iff.mp hia))
        · exact (sortByKey_perm _ _).mem_iff.mp
            (List.mem_of_mem_drop ((buildBvh_actors_perm fuel _).mem_iff.mp hia))
      exact subBox_unionBoxes hmem

/-- `a` fits entirely inside `b`, componentwise (decidable form used by
the octant assignment). -/
def boxInside (a b : AABB) : Prop :=
  b.lo.x ≤ a.lo.x ∧ a.hi.x ≤ b.hi.x ∧
  b.lo.y ≤ a.lo.y ∧ a.hi.y ≤ b.hi.y ∧
  b.lo.z ≤ a.lo.z ∧ a.hi.z ≤ b.hi.z

instance (a b : AABB) : Decidable (boxInside a b) := by
  unfold boxInside; infer_instance

theorem boxInside_subBox {a b : AABB} (h : boxInside a b) : subBox a b := by
  obtain ⟨h1, h2, h3, h4, h5, h6⟩ := h
  intro p hp
  obtain ⟨p1, p2, p3, p4, p5, p6⟩ := hp
  exact ⟨by linarith, by linarith, by linarith, by linarith, by linarith,
    by linarith⟩

/-- The `k`-th (0 ≤ k < 8) octant of a cube, selecting the lower or upper
half on each axis by the bits of `k`.  Modelled from the spec (§4.2): the
Oct tree subdivides a bounding cube into 8 equal octants. -/
def octant (c : AABB) (k : ℕ) : AABB :=
  let mx := (c.lo.x + c.hi.x) / 2
  let my := (c.lo.y + c.hi.y) / 2
  let mz := (c.lo.z + c.hi.z) / 2
  ⟨⟨if k % 2 = 0 then c.lo.x else mx,
    if k / 2 % 2 = 0 then c.lo.y else my,
    if k / 4 % 2 = 0 then c.lo.z else mz⟩,
   ⟨if k % 2 = 0 then mx else c.hi.x,
    if k / 2 % 2 = 0 then my else c.hi.y,
    if k / 4 % 2 = 0 then mz else c.hi.z⟩⟩

/-- Assign an actor to the first octant that fully contains its bounding
box, or to none.  Modelled from the spec (§4.2): "an actor is assigned to
the smallest octant whose bounds fully contain the actor's bounding box,
otherwise it remains at the current (coarser) node". -/
def octAssign (c : AABB) (ia : IActor) : Option ℕ :=
  if boxInside ia.actor.box (octant c 0) then some 0
  else if boxInside ia.actor.box (octant c 1) then some 1
  else if boxInside ia.actor.box (octant c 2) then some 2
  else if boxInside ia.actor.box (octant c 3) then some 3
  else if boxInside ia.actor.box (octant c 4) then some 4
  else if boxInside ia.actor.box (octant c 5) then some 5
  else if boxInside ia.actor.box (octant c 6) then some 6
  else if boxInside ia.actor.box (octant c 7) then some 7
  else none

theorem octAssign_some {c : AABB} {ia : IActor} {k : ℕ}
    (h : octAssign c ia = some k) : boxInside ia.actor.box (octant c k) := by
  unfold octAssign at h
  split_ifs at h with h0 h1 h2 h3 h4 h5 h6 h7
  · obtain rfl : k = 0 := (Option.some.inj h).symm; exact h0
  · obtain rfl : k = 1 := (Option.some.inj h).symm; exact h1
  · obtain rfl : k = 2 := (Option.some.inj h).symm; exact h2
  · obtain rfl : k = 3 := (Option.some.inj h).symm; exact h3
  · obtain rfl : k = 4 := (Option.some.inj h).symm; exact h4
  · obtain rfl : k = 5 := (Option.some.inj h).symm; exact h5
  · obtain rfl : k = 6 := (Option.some.inj h).symm; exact h6
  · obtain rfl : k = 7 := (Option.some.inj h).symm; exact h7

theorem octAssign_lt {c : AABB} {ia : IActor} {k : ℕ}
    (h : octAssign c ia = some k) : k < 8 := by
  unfold octAssign at h
  split_ifs at h
  all_goals (obtain rfl := (Option.some.inj h).symm; omega)

/-- Actors kept at an Oct node: those fitting in no single octant. -/
def octHere (c : AABB) (l : List IActor) : List IActor :=
  l.filter (fun ia => (octAssign c ia).isNone)

/-- Actors assigned to octant `k`. -/
def octBucket (c : AABB) (k : ℕ) (l : List IActor) : List IActor :=
  l.filter (fun ia => decide (octAssign c ia = some k))

/-- Actors assigned to octant `k` or any later octant. -/
def octLeft (c : AABB) (k : ℕ) (ia : IActor) : Bool :=
  match octAssign c ia with
  | some j => decide (k ≤ j)
  | none => false

theorem octLeft_of_some {c : AABB} {ia : IActor} {j : ℕ}
    (hja : octAssign c ia = some j) (k : ℕ) :
    octLeft c k ia = decide (k ≤ j) := by
  simp [octLeft, hja]

theorem octLeft_of_none {c : AABB} {ia : IActor}
    (hja : octAssign c ia = none) (k : ℕ) : octLeft c k ia = false := by
  simp [octLeft, hja]

/-- Peeling step: the actors at octant `k` or later split into the bucket
of `k` and the actors at octant `k+1` or later. -/
theorem octPeel (c : AABB) (l : List IActor) (k : ℕ) :
    List.Perm (l.filter (octLeft c k))
      (octBucket c k l ++ l.filter (octLeft c (k + 1))) := by
  have h1 := List.filter_append_perm
    (fun ia => decide (octAssign c ia = some k)) (l.filter (octLeft c k))
  refine List.Perm.trans h1.symm (List.Perm.append ?_ ?_)
  · rw [List.filter_filter]
    unfold octBucket
    rw [List.filter_congr]
    intro a _
    rcases hja : octAssign c a with _ | j
    · rw [octLeft_of_none hja]
      rw [decide_eq_false (by simp)]
      rfl
    · rw [octLeft_of_some hja]
      by_cases hjk : j = k
      · subst hjk
        rw [decide_eq_true (show (some j : Option ℕ) = some j from rfl),
          decide_eq_true (le_refl j)]
        rfl
      · rw [decide_eq_false
          (show ¬ (some j : Option ℕ) = some k by simpa using hjk)]
        rfl
  · rw [List.filter_filter]
    rw [List.filter_congr]
    intro a _
    rcases hja : octAssign c a with _ | j
    · rw [octLeft_of_none hja, octLeft_of_none hja]
      rw [decide_eq_false (by simp)]
      rfl
    · rw [octLeft_of_some hja, octLeft_of_some hja]
      by_cases hjk : j = k
      · subst hjk
        rw [decide_eq_true (show (some j : Option ℕ) = some j from rfl)]
        simp only [Bool.not_true, Bool.false_and]
        symm
        exact decide_eq_false (by omega)
      · rw [decide_eq_false
          (show ¬ (some j : Option ℕ) = some k by simpa using hjk)]
        simp only [Bool.not_false, Bool.true_and]
        rw [decide_eq_decide]
        omega

theorem octLeft_eight (c : AABB) (l : List IActor) :
    l.filter (octLeft c 8) = [] := by
  rw [List.filter_congr, List.filter_false]
  intro a _
  rcases hja : octAssign c a with _ | j
  · exact octLeft_of_none hja 8
  · rw [octLeft_of_some hja]
    exact decide_eq_false (by have := octAssign_lt hja; omega)

theorem octHere_left (c : AABB) (l : List IActor) :
    List.Perm l (octHere c l ++ l.filter (octLeft c 0)) := by
  have h1 := List.filter_append_perm (fun ia => (octAssign c ia).isNone) l
  refine List.Perm.trans h1.symm (List.Perm.append (List.Perm.refl _) ?_)
  rw [List.filter_congr]
  intro a _
  rcases hja : octAssign c a with _ | j
  · rw [octLeft_of_none hja]
    rfl
  · rw [octLeft_of_some hja, decide_eq_true (Nat.zero_le j)]
    rfl

/-- The full 9-way partition of an actor list by octant assignment. -/
theorem octSplit_perm (c : AABB) (l : List IActor) :
    List.Perm l
      (octHere c l ++ (octBucket c 0 l ++ (octBucket c 1 l ++
        (octBucket c 2 l ++ (octBucket c 3 l ++ (octBucket c 4 l ++
        (octBucket c 5 l ++ (octBucket c 6 l ++ (octBucket c 7 l ++
        []))))))))) := by
  refine List.Perm.trans (octHere_left c l) (List.Perm.append (List.Perm.refl _) ?_)
  refine List.Perm.trans (octPeel c l 0) (List.Perm.append (List.Perm.refl _) ?_)
  refine List.Perm.trans (octPeel c l 1) (List.Perm.append (List.Perm.refl _) ?_)
  refine List.Perm.trans (octPeel c l 2) (List.Perm.append (List.Perm.refl _) ?_)
  refine List.Perm.trans (octPeel c l 3) (List.Perm.append (List.Perm.refl _) ?_)
  refine List.Perm.trans (octPeel c l 4) (List.Perm.append (List.Perm.refl _) ?_)
  refine List.Perm.trans (octPeel c l 5) (List.Perm.append (List.Perm.refl _) ?_)
  refine List.Perm.trans (octPeel c l 6) (List.Perm.append (List.Perm.refl _) ?_)
  refine List.Perm.trans (octPeel c l 7) (List.Perm.append (List.Perm.refl _) ?_)
  rw [octLeft_eight]

/-- The Oct tree builder, modelled from the spec (§4.2): recursively
subdivide the cube into 8 octants, pushing each actor into the first
octant fully containing its bounding box and keeping the rest at the
node; recursion stops at the configured maximum depth (the fuel) or when
a node holds at most one actor. -/
def buildOct : ℕ → AABB → List IActor → PTree
  | 0, cube, l => .node cube l .nil
  | _ + 1, cube, [] => .node cube [] .nil
  | _ + 1, cube, [a] => .node cube [a] .nil
  | fuel + 1, cube, a :: b :: rest =>
    .node cube (octHere cube (a :: b :: rest))
      (.cons (buildOct fuel (octant cube 0) (octBucket cube 0 (a :: b :: rest)))
      (.cons (buildOct fuel (octant cube 1) (octBucket cube 1 (a :: b :: rest)))
      (.cons (buildOct fuel (octant cube 2) (octBucket cube 2 (a :: b :: rest)))
      (.cons (buildOct fuel (octant cube 3) (octBucket cube 3 (a :: b :: rest)))
      (.cons (buildOct fuel (octant cube 4) (octBucket cube 4 (a :: b :: rest)))
      (.cons (buildOct fuel (octant cube 5) (octBucket cube 5 (a :: b :: rest)))
      (.cons (buildOct fuel (octant cube 6) (octBucket cube 6 (a :: b :: rest)))
      (.cons (buildOct fuel (octant cube 7) (octBucket cube 7 (a :: b :: rest)))
      .nil))))))))

/-- The Oct tree stores exactly the actors it was built from. -/
theorem buildOct_actors_perm :
    ∀ (fuel : ℕ) (cube : AABB) (l : List IActor),
      List.Perm (PTree.actors (buildOct fuel cube l)) l := by
  intro fuel
  induction fuel with
  | zero =>
    intro cube l
    simp [buildOct, PTree.actors, PForest.actors]
  | succ fuel ih =>
    intro cube l
    rcases l with _ | ⟨a, _ | ⟨b, rest⟩⟩
    · simp [buildOct, PTree.actors, PForest.actors]
    · simp [buildOct, PTree.actors, PForest.actors]
    · rw [buildOct]
      simp only [PTree.actors, PForest.actors]
      refine List.Perm.trans
        (List.Perm.append (List.Perm.refl (octHere cube (a :: b :: rest)))
          (List.Perm.append (ih _ _) (List.Perm.append (ih _ _)
            (List.Perm.append (ih _ _) (List.Perm.append (ih _ _)
              (List.Perm.append (ih _ _) (List.Perm.append (ih _ _)
                (List.Perm.append (ih _ _) (List.Perm.append (ih _ _)
                  (List.Perm.refl []))))))))))
        (octSplit_perm cube (a :: b :: rest)).symm

/-- The Oct tree satisfies the pruned-traversal invariant whenever the
root cube encloses all the actors' boxes. -/
theorem buildOct_inv :
    ∀ (fuel : ℕ) (cube : AABB) (l : List IActor),
      (∀ ia ∈ l, subBox ia.actor.box cube) →
      PTree.inv (buildOct fuel cube l) := by
  intro fuel
  induction fuel with
  | zero =>
    intro cube l hsub
    refine ⟨fun ia hia => hsub ia ?_, trivial⟩
    simpa [PForest.actors] using hia
  | succ fuel ih =>
    intro cube l hsub
    rcases l with _ | ⟨a, _ | ⟨b, rest⟩⟩
    · exact ⟨by simp [PForest.actors], trivial⟩
    · refine ⟨fun ia hia => hsub ia ?_, trivial⟩
      simpa [PForest.actors] using hia
    · rw [buildOct]
      refine ⟨?_, ?_, ?_, ?_, ?_, ?_, ?_, ?_, ?_, trivial⟩
      · intro ia hia
        refine hsub ia ((buildOct_actors_perm (fuel + 1) cube
          (a :: b :: rest)).mem_iff.mp ?_)
        rw [buildOct]
        exact hia
      all_goals
        refine ih _ _ (fun ia hia => ?_)
        unfold octBucket at hia
        exact boxInside_subBox
          (octAssign_some (of_decide_eq_true (List.mem_filter.mp hia).2))

/-- Bounding cube of a list of actors, modelled from the spec (§4.2): a
cube enclosing all actors, here the smallest cube concentric with the
hull of the actors' boxes. -/
def boundingCube (l : List IActor) : AABB :=
  let u := unionBoxes l
  let cx := (u.lo.x + u.hi.x) / 2
  let cy := (u.lo.y + u.hi.y) / 2
  let cz := (u.lo.z + u.hi.z) / 2
  let h := max (max ((u.hi.x - u.lo.x) / 2) ((u.hi.y - u.lo.y) / 2))
    ((u.hi.z - u.lo.z) / 2)
  ⟨⟨cx - h, cy - h, cz - h⟩, ⟨cx + h, cy + h, cz + h⟩⟩

theorem subBox_boundingCube_union (l : List IActor) :
    subBox (unionBoxes l) (boundingCube l) := by
  intro p hp
  obtain ⟨p1, p2, p3, p4, p5, p6⟩ := hp
  unfold boundingCube
  have hx : ((unionBoxes l).hi.x - (unionBoxes l).lo.x) / 2 ≤
      max (max (((unionBoxes l).hi.x - (unionBoxes l).lo.x) / 2)
        (((unionBoxes l).hi.y - (unionBoxes l).lo.y) / 2))
      (((unionBoxes l).hi.z - (unionBoxes l).lo.z) / 2) :=
    le_trans (le_max_left _ _) (le_max_left _ _)
  have hy : ((unionBoxes l).hi.y - (unionBoxes l).lo.y) / 2 ≤
      max (max (((unionBoxes l).hi.x - (unionBoxes l).lo.x) / 2)
        (((unionBoxes l).hi.y - (unionBoxes l).lo.y) / 2))
      (((unionBoxes l).hi.z - (unionBoxes l).lo.z) / 2) :=
    le_trans (le_max_right _ _) (le_max_left _ _)
  have hz : ((unionBoxes l).hi.z - (unionBoxes l).lo.z) / 2 ≤
      max (max (((unionBoxes l).hi.x - (unionBoxes l).lo.x) / 2)
        (((unionBoxes l).hi.y - (unionBoxes l).lo.y) / 2))
      (((unionBoxes l).hi.z - (unionBoxes l).lo.z) / 2) :=
    le_max_right _ _
  refine ⟨?_, ?_, ?_, ?_, ?_, ?_⟩ <;> simp only [] <;> linarith

theorem subBox_boundingCube {l : List IActor} {ia : IActor} (hmem : ia ∈ l) :
    subBox ia.actor.box (boundingCube l) :=
  subBox_trans (subBox_unionBoxes hmem) (subBox_boundingCube_union l)

/-- Maximum subdivision depth of the Oct tree.  Modelled from the spec
(§4.2: "recursion stops at a configured maximum depth"); the query
results are independent of this value. -/
def octMaxDepth : ℕ := 8

/-- The Binary (BVH) tree variant as a query: build, then traverse.
Modelled from the spec (§4.2). -/
def queryBinary (actors : List IActor) (r : Ray) (tmin tmax : ℚ) :
    Option Cand :=
  PTree.query r tmin tmax (buildBvh actors.length actors) none

/-- The Oct tree variant as a query: build on the bounding cube, then
traverse.  Modelled from the spec (§4.2). -/
def queryOct (actors : List IActor) (r : Ray) (tmin tmax : ℚ) :
    Option Cand :=
  PTree.query r tmin tmax (buildOct octMaxDepth (boundingCube actors) actors) none

/-- Tree equivalence, Binary versus Linear: on any actor list with
pairwise distinct indices, the BVH query agrees with the Linear scan on
every ray and window. -/
theorem queryBinary_eq_queryLinear (actors : List IActor)
    (hnd : actors.Pairwise (fun a b => a.idx ≠ b.idx))
    (r : Ray) (tmin tmax : ℚ) :
    queryBinary actors r tmin tmax = queryLinear actors r tmin tmax := by
  rw [queryBinary, queryLinear,
    PTree.query_eq r tmin tmax _ (buildBvh_inv actors.length actors) none]
  exact foldl_step0_perm r tmin tmax (buildBvh_actors_perm actors.length actors)
    (((buildBvh_actors_perm actors.length actors).pairwise_iff
      (fun h => Ne.symm h)).mpr hnd) none

/-- Tree equivalence, Oct versus Linear: on any actor list with pairwise
distinct indices, the Oct query agrees with the Linear scan on every ray
and window. -/
theorem queryOct_eq_queryLinear (actors : List IActor)
    (hnd : actors.Pairwise (fun a b => a.idx ≠ b.idx))
    (r : Ray) (tmin tmax : ℚ) :
    queryOct actors r tmin tmax = queryLinear actors r tmin tmax := by
  rw [queryOct, queryLinear,
    PTree.query_eq r tmin tmax _
      (buildOct_inv octMaxDepth (boundingCube actors) actors
        (fun ia hia => subBox_boundingCube hia)) none]
  exact foldl_step0_perm r tmin tmax
    (buildOct_actors_perm octMaxDepth (boundingCube actors) actors)
    (((buildOct_actors_perm octMaxDepth (boundingCube actors) actors).pairwise_iff
      (fun h => Ne.symm h)).mpr hnd) none

/-- Label a list of actors with consecutive indices starting at `n`. -/
def indexActorsFrom (n : ℕ) : List TActor → List IActor
  | [] => []
  | a :: l => ⟨n, a⟩ :: indexActorsFrom (n + 1) l

/-- Label the Scene's actors with their list positions. -/
def indexActors (l : List TActor) : List IActor := indexActorsFrom 0 l

theorem indexActorsFrom_idx {n : ℕ} {l : List TActor} {ia : IActor}
    (h : ia ∈ indexActorsFrom n l) : n ≤ ia.idx := by
  induction l generalizing n with
  | nil => exact absurd h (List.not_mem_nil ia)
  | cons a l ih =>
    rcases List.mem_cons.mp h with rfl | h2
    · exact le_refl _
    · exact le_trans (Nat.le_succ n) (ih h2)

theorem indexActorsFrom_pairwise (n : ℕ) (l : List TActor) :
    (indexActorsFrom n l).Pairwise (fun a b => a.idx ≠ b.idx) := by
  induction l generalizing n with
  | nil => exact List.Pairwise.nil
  | cons a l ih =>
    refine List.pairwise_cons.mpr ⟨?_, ih (n + 1)⟩
    intro b hb
    have := indexActorsFrom_idx hb
    show n ≠ b.idx
    omega

theorem indexActors_pairwise (l : List TActor) :
    (indexActors l).Pairwise (fun a b => a.idx ≠ b.idx) :=
  indexActorsFrom_pairwise 0 l

theorem Vec3.add_zero (a : Vec3) : a.add Vec3.zero = a := by
  simp [Vec3.add, Vec3.zero]

theorem Vec3.zero_add (a : Vec3) : Vec3.zero.add a = a := by
  simp [Vec3.add, Vec3.zero]

theorem Vec3.add_assoc (a b c : Vec3) :
    (a.add b).add c = a.add (b.add c) := by
  simp only [Vec3.add, Vec3.mk.injEq]
  refine ⟨?_, ?_, ?_⟩ <;> ring

/-- Sum of a list of colors. -/
def vsum : List Vec3 → Vec3
  | [] => Vec3.zero
  | c :: l => c.add (vsum l)

/-- Tree-variant selector, the model of `TreeType` (`Linear`, `Binary`,
`Oct`) used by `Scene::set_tree_type` in the test harness. -/
inductive TreeType where
  | linear
  | binary
  | oct
deriving DecidableEq, Repr

/-- A scene, modelled from the spec (§3): an ordered collection of Actors
plus a constant background color.  (The tree is derived state; here it is
rebuilt by the query functions, matching the spec's
rebuild-on-demand reading.) -/
structure Scene where
  actors : List TActor
  background : Vec3

/-- Self-intersection epsilon.  Modelled from the spec (§4.4): the query
window starts at a small epsilon; the concrete value is immaterial to the
claims. -/
def sceneEps : ℚ := 1 / 1000

/-- Model of the query window's `+infinity` upper bound (spec §4.4); a
bound beyond every hit of interest. -/
def sceneFar : ℚ := 10 ^ 9

/-- Nearest-hit query through the scene's selected tree variant, with the
scene's actors labelled by their list positions. -/
def sceneQuery (tt : TreeType) (scene : Scene) (r : Ray) : Option Cand :=
  match tt with
  | .linear => queryLinear (indexActors scene.actors) r sceneEps sceneFar
  | .binary => queryBinary (indexActors scene.actors) r sceneEps sceneFar
  | .oct => queryOct (indexActors scene.actors) r sceneEps sceneFar

/-- All three tree variants answer every scene query identically. -/
theorem sceneQuery_eq (tt : TreeType) (scene : Scene) (r : Ray) :
    sceneQuery tt scene r = sceneQuery .linear scene r := by
  rcases tt with _ | _ | _
  · rfl
  · exact queryBinary_eq_queryLinear (indexActors scene.actors)
      (indexActors_pairwise scene.actors) r sceneEps sceneFar
  · exact queryOct_eq_queryLinear (indexActors scene.actors)
      (indexActors_pairwise scene.actors) r sceneEps sceneFar

/-- Core of the recursive shading algorithm, modelled from the spec
(§4.4), with the remaining depth (`max_depth - depth`) as structural
fuel: at exhausted fuel return black (the recursion ceiling); on a miss
return the Scene's background; on a hit dispatch the hit Actor's
material, which either emits a terminal color or scatters, in which case
the scattered ray is traced one level deeper and the result multiplied by
the attenuation. -/
def getColorAux (scene : Scene) (q : Ray → Option Cand) :
    ℕ → Ray → Rng → Vec3 × Rng
  | 0, _, g => (Vec3.zero, g)
  | fuel + 1, r, g =>
    match q r with
    | none => (scene.background, g)
    | some c =>
      match c.ia.actor.mat r c.hit g with
      | (.emit color, g1) => (color, g1)
      | (.scatter r2 att, g1) =>
        let p := getColorAux scene q fuel r2 g1
        (att.hmul p.1, p.2)

/-- `Scene::get_color(ray, depth, max_depth)`, modelled from the spec
(§4.4, steps 1-4).  The recursion is driven by the remaining depth
`max_depth - depth`, so that `depth ≥ max_depth` yields black and each
scattered ray is traced with `depth + 1`. -/
def get_color (tt : TreeType) (scene : Scene) (r : Ray)
    (depth maxDepth : ℕ) (g : Rng) : Vec3 × Rng :=
  getColorAux scene (sceneQuery tt scene) (maxDepth - depth) r g

/-- The model of `Image<T>` from `src/renderer/mod.rs`: width, height and
a flat buffer of per-channel values. -/
structure Image where
  width : ℕ
  height : ℕ
  data : List ℚ
deriving DecidableEq, Repr

/-- `Image::new(width, height)` from `src/renderer/mod.rs` lines 20-27:
a zero-filled buffer of length `3 * width * height`. -/
def Image.new (width height : ℕ) : Image :=
  ⟨width, height, List.replicate (3 * width * height) 0⟩

/-- The model of `Renderer` from `src/renderer/mod.rs` lines 30-40. -/
structure Renderer where
  x0 : ℕ
  x1 : ℕ
  y0 : ℕ
  y1 : ℕ
  width : ℕ
  height : ℕ
  sampling : ℕ
  reflections : ℕ
  antialiasing : Bool

/-- `Renderer::new` from `src/renderer/mod.rs` lines 43-56. -/
def Renderer.new (x0 x1 y0 y1 width height sampling reflections : ℕ)
    (antialiasing : Bool) : Renderer :=
  ⟨x0, x1, y0, y1, width, height, sampling, reflections, antialiasing⟩

/-- A camera is its `get_ray(u, v)` interface (spec §3); the
`PerspectiveCamera` internals are out of the modelled core. -/
abbrev Camera := ℚ → ℚ → Ray

/-- `Renderer::get_ray` from `src/renderer/mod.rs` lines 108-129.  With
antialiasing off the pixel position is used as is (no random draw); with
antialiasing on the position is jittered by one random draw per
coordinate (`i` first, then `j`) before the same normalization. -/
def Renderer.get_ray (ren : Renderer) (cam : Camera) (i j : ℕ) (g : Rng) :
    Ray × Rng :=
  match ren.antialiasing with
  | false =>
    let v := 2 * ((j : ℚ) / (ren.height : ℚ)) - 1
    let u := 2 * ((i : ℚ) / (ren.width : ℚ)) - 1
    (cam u v, g)
  | true =>
    let d1 := Rng.next g
    let d2 := Rng.next d1.2
    let i2 := (i : ℚ) + d1.1
    let j2 := (j : ℚ) + d2.1
    let v := 2 * (j2 / (ren.height : ℚ)) - 1
    let u := 2 * (i2 / (ren.width : ℚ)) - 1
    (cam u v, d2.2)

/-- Effective sample count of `render_pixel` (`src/renderer/mod.rs` lines
64-67): a configured sampling of 0 is treated as 1. -/
def Renderer.nEff (ren : Renderer) : ℕ :=
  match ren.sampling with
  | 0 => 1
  | k + 1 => k + 1

/-- Sampling loop of `render_pixel` with antialiasing disabled
(`src/renderer/mod.rs` lines 70-75): the single precomputed ray is reused
for every iteration.  Besides the accumulated color and final random
state, the model returns the trace of rays passed to `get_color`. -/
def sampleFixed (gc : Ray → Rng → Vec3 × Rng) (ray : Ray) :
    ℕ → Vec3 → Rng → List Ray → Vec3 × Rng × List Ray
  | 0, acc, g, tr => (acc, g, tr)
  | k + 1, acc, g, tr =>
    let p := gc ray g
    sampleFixed gc ray k (acc.add p.1) p.2 (tr ++ [ray])

/-- Sampling loop of `render_pixel` with antialiasing enabled
(`src/renderer/mod.rs` lines 76-81): a fresh jittered ray per iteration. -/
def sampleJitter (gr : Rng → Ray × Rng) (gc : Ray → Rng → Vec3 × Rng) :
    ℕ → Vec3 → Rng → List Ray → Vec3 × Rng × List Ray
  | 0, acc, g, tr => (acc, g, tr)
  | k + 1, acc, g, tr =>
    let q := gr g
    let p := gc q.1 q.2
    sampleJitter gr gc k (acc.add p.1) p.2 (tr ++ [q.1])

/-- `Renderer::render_pixel` from `src/renderer/mod.rs` lines 58-88:
accumulate `get_color` over the effective sample count and divide by it.
The Rust code threads one global random source implicitly; the model
threads `g` explicitly and additionally records the rays passed to
`get_color`. -/
def render_pixel (ren : Renderer) (tt : TreeType) (scene : Scene)
    (cam : Camera) (i j : ℕ) (g : Rng) : Vec3 × Rng × List Ray :=
  let n := ren.nEff
  let out :=
    match ren.antialiasing with
    | false =>
      let rg := ren.get_ray cam i j g
      sampleFixed (fun ray g2 => get_color tt scene ray 0 ren.reflections g2)
        rg.1 n Vec3.zero rg.2 []
    | true =>
      sampleJitter (fun g2 => ren.get_ray cam i j g2)
        (fun ray g2 => get_color tt scene ray 0 ren.reflections g2)
        n Vec3.zero g []
  (out.1.divs (n : ℚ), out.2.1, out.2.2)

/-- The three buffer writes of one `render` loop iteration
(`src/renderer/mod.rs` lines 99-102): store the color triple at data
indices `3 * (j * w + i)` through `3 * (j * w + i) + 2`. -/
def renderWrite (w : ℕ) (color : Vec3) (j i : ℕ) (img : Image) : Image :=
  { img with data := ((img.data.set (3 * (j * w + i)) color.x).set
      (3 * (j * w + i) + 1) color.y).set (3 * (j * w + i) + 2) color.z }

/-- `Renderer::render` from `src/renderer/mod.rs` lines 90-106: allocate
an image of the rendered rectangle's size and, in row-major loops, write
each pixel's `render_pixel` color into the buffer.  The Rust code draws
all randomness from one global source; the model gives each pixel its own
stream `rngOf i j`, which the spec licenses (§5: workers may use
independent random sources). -/
def render (ren : Renderer) (tt : TreeType) (scene : Scene) (cam : Camera)
    (rngOf : ℕ → ℕ → Rng) : Image :=
  let w := ren.x1 - ren.x0
  let h := ren.y1 - ren.y0
  (List.range h).foldl (fun img j =>
    (List.range w).foldl (fun img i =>
      renderWrite w (render_pixel ren tt scene cam (ren.x0 + i) (ren.y0 + j)
        (rngOf i j)).1 j i img
    ) img
  ) (Image.new w h)

/-- Color triple of a stored pixel (reading convention of the test
harness: index `j * width + i`). -/
def pixelColor (img : Image) (i j : ℕ) : Vec3 :=
  ⟨img.data.getD (3 * (j * img.width + i)) 0,
   img.data.getD (3 * (j * img.width + i) + 1) 0,
   img.data.getD (3 * (j * img.width + i) + 2) 0⟩

/-- `image_diff` from `src/tests/main.rs` lines 49-63: the sum over all
pixels of a per-pixel norm of the color difference (`ℓ¹` norm in the
model; the spec allows "absolute/Euclidean"). -/
def imageDiff (a b : Image) : ℚ :=
  (List.range a.height).foldl (fun s j =>
    (List.range a.width).foldl (fun s i =>
      s + ((pixelColor a i j).sub (pixelColor b i j)).anorm) s) 0

theorem imageDiff_self (a : Image) : imageDiff a a = 0 := by
  have inner : ∀ (lw : List ℕ) (j : ℕ) (s : ℚ),
      lw.foldl (fun s i =>
        s + ((pixelColor a i j).sub (pixelColor a i j)).anorm) s = s := by
    intro lw j
    induction lw with
    | nil => intro s; rfl
    | cons i lw ih =>
      intro s
      rw [List.foldl_cons, Vec3.anorm_sub_self, add_zero]
      exact ih s
  have outer : ∀ (lh : List ℕ) (s : ℚ),
      lh.foldl (fun s j =>
        (List.range a.width).foldl (fun s i =>
          s + ((pixelColor a i j).sub (pixelColor a i j)).anorm) s) s = s := by
    intro lh
    induction lh with
    | nil => intro s; rfl
    | cons j lh ih =>
      intro s
      rw [List.foldl_cons, inner (List.range a.width) j s]
      exact ih s
  exact outer (List.range a.height) 0

/-- The colors returned by the successive `get_color` calls of the
antialiasing-off sampling loop (the spec's "accumulates `Scene.get_color`
over all samples", §4.6), as a list. -/
def sampleColorsFixed (gc : Ray → Rng → Vec3 × Rng) (ray : Ray) :
    ℕ → Rng → List Vec3
  | 0, _ => []
  | k + 1, g => (gc ray g).1 :: sampleColorsFixed gc ray k (gc ray g).2

/-- The colors returned by the successive `get_color` calls of the
antialiasing-on sampling loop, as a list. -/
def sampleColorsJitter (gr : Rng → Ray × Rng) (gc : Ray → Rng → Vec3 × Rng) :
    ℕ → Rng → List Vec3
  | 0, _ => []
  | k + 1, g =>
    (gc (gr g).1 (gr g).2).1 ::
      sampleColorsJitter gr gc k (gc (gr g).1 (gr g).2).2

theorem sampleFixed_color (gc : Ray → Rng → Vec3 × Rng) (ray : Ray) :
    ∀ (n : ℕ) (acc : Vec3) (g : Rng) (tr : List Ray),
      (sampleFixed gc ray n acc g tr).1 =
        acc.add (vsum (sampleColorsFixed gc ray n g)) := by
  intro n
  induction n with
  | zero => intro acc g tr; rw [sampleFixed, sampleColorsFixed, vsum, Vec3.add_zero]
  | succ k ih =>
    intro acc g tr
    rw [sampleFixed, sampleColorsFixed, vsum, ih, Vec3.add_assoc]

theorem sampleFixed_trace (gc : Ray → Rng → Vec3 × Rng) (ray : Ray) :
    ∀ (n : ℕ) (acc : Vec3) (g : Rng) (tr : List Ray),
      (sampleFixed gc ray n acc g tr).2.2 = tr ++ List.replicate n ray := by
  intro n
  induction n with
  | zero => intro acc g tr; rw [sampleFixed, List.replicate, List.append_nil]
  | succ k ih =>
    intro acc g tr
    rw [sampleFixed, ih, List.replicate_succ, List.append_assoc,
      List.singleton_append]

theorem sampleJitter_color (gr : Rng → Ray × Rng) (gc : Ray → Rng → Vec3 × Rng) :
    ∀ (n : ℕ) (acc : Vec3) (g : Rng) (tr : List Ray),
      (sampleJitter gr gc n acc g tr).1 =
        acc.add (vsum (sampleColorsJitter gr gc n g)) := by
  intro n
  induction n with
  | zero => intro acc g tr; rw [sampleJitter, sampleColorsJitter, vsum, Vec3.add_zero]
  | succ k ih =>
    intro acc g tr
    rw [sampleJitter, sampleColorsJitter, vsum, ih, Vec3.add_assoc]

theorem sampleColorsFixed_length (gc : Ray → Rng → Vec3 × Rng) (ray : Ray) :
    ∀ (n : ℕ) (g : Rng), (sampleColorsFixed gc ray n g).length = n := by
  intro n
  induction n with
  | zero => intro g; rfl
  | succ k ih => intro g; rw [sampleColorsFixed, List.length_cons, ih]

theorem sampleColorsJitter_length (gr : Rng → Ray × Rng)
    (gc : Ray → Rng → Vec3 × Rng) :
    ∀ (n : ℕ) (g : Rng), (sampleColorsJitter gr gc n g).length = n := by
  intro n
  induction n with
  | zero => intro g; rfl
  | succ k ih => intro g; rw [sampleColorsJitter, List.length_cons, ih]

theorem sampleFixed_color_of_zero {gc : Ray → Rng → Vec3 × Rng} (ray : Ray)
    (hgc : ∀ r g, (gc r g).1 = Vec3.zero) :
    ∀ (n : ℕ) (acc : Vec3) (g : Rng) (tr : List Ray),
      (sampleFixed gc ray n acc g tr).1 = acc := by
  intro n
  induction n with
  | zero => intro acc g tr; rfl
  | succ k ih =>
    intro acc g tr
    rw [sampleFixed, ih, hgc, Vec3.add_zero]

theorem sampleJitter_color_of_zero {gr : Rng → Ray × Rng}
    {gc : Ray → Rng → Vec3 × Rng} (hgc : ∀ r g, (gc r g).1 = Vec3.zero) :
    ∀ (n : ℕ) (acc : Vec3) (g : Rng) (tr : List Ray),
      (sampleJitter gr gc n acc g tr).1 = acc := by
  intro n
  induction n with
  | zero => intro acc g tr; rfl
  | succ k ih =>
    intro acc g tr
    rw [sampleJitter, ih, hgc, Vec3.add_zero]

theorem Vec3.zero_divs (k : ℚ) : Vec3.zero.divs k = Vec3.zero := by
  simp [Vec3.divs, Vec3.zero]

/-- The per-sample `get_color` results of one `render_pixel` call, read
off from the spec's description of the sampling loop (§4.6). -/
def renderPixelSamples (ren : Renderer) (tt : TreeType) (scene : Scene)
    (cam : Camera) (i j : ℕ) (g : Rng) : List Vec3 :=
  match ren.antialiasing with
  | false =>
    sampleColorsFixed (fun ray g2 => get_color tt scene ray 0 ren.reflections g2)
      (ren.get_ray cam i j g).1 ren.nEff (ren.get_ray cam i j g).2
  | true =>
    sampleColorsJitter (fun g2 => ren.get_ray cam i j g2)
      (fun ray g2 => get_color tt scene ray 0 ren.reflections g2) ren.nEff g

/-- `render_pixel` averages exactly its per-sample `get_color` results. -/
theorem render_pixel_avg (ren : Renderer) (tt : TreeType) (scene : Scene)
    (cam : Camera) (i j : ℕ) (g : Rng) :
    (render_pixel ren tt scene cam i j g).1 =
      (vsum (renderPixelSamples ren tt scene cam i j g)).divs (ren.nEff : ℚ) := by
  unfold render_pixel renderPixelSamples
  rcases haa : ren.antialiasing with _ | _
  · simp only []
    rw [sampleFixed_color, Vec3.zero_add]
  · simp only []
    rw [sampleJitter_color, Vec3.zero_add]

theorem Renderer.nEff_eq_max (ren : Renderer) :
    ren.nEff = max ren.sampling 1 := by
  unfold Renderer.nEff
  rcases ren.sampling with _ | k
  · rfl
  · simp only []
    omega

theorem Renderer.one_le_nEff (ren : Renderer) : 1 ≤ ren.nEff := by
  rw [Renderer.nEff_eq_max]
  omega

/-- `renderPixelSamples` has length `nEff`. -/
theorem renderPixelSamples_length (ren : Renderer) (tt : TreeType)
    (scene : Scene) (cam : Camera) (i j : ℕ) (g : Rng) :
    (renderPixelSamples ren tt scene cam i j g).length = ren.nEff := by
  unfold renderPixelSamples
  rcases ren.antialiasing with _ | _
  · exact sampleColorsFixed_length _ _ _ _
  · exact sampleColorsJitter_length _ _ _ _

/-- Depth-exhausted shading is black (spec §4.4 step 1). -/
theorem get_color_ceiling (tt : TreeType) (scene : Scene) (r : Ray)
    (depth maxDepth : ℕ) (g : Rng) (h : maxDepth ≤ depth) :
    get_color tt scene r depth maxDepth g = (Vec3.zero, g) := by
  unfold get_color
  rw [Nat.sub_eq_zero_of_le h]
  rfl

/-- With zero reflection budget every `get_color` call of `render_pixel`
returns black. -/
theorem render_pixel_black (ren : Renderer) (tt : TreeType) (scene : Scene)
    (cam : Camera) (i j : ℕ) (g : Rng) (h : ren.reflections = 0) :
    (render_pixel ren tt scene cam i j g).1 = Vec3.zero := by
  unfold render_pixel
  have hgc : ∀ (r : Ray) (g2 : Rng),
      (get_color tt scene r 0 ren.reflections g2).1 = Vec3.zero := by
    intro r g2
    rw [get_color_ceiling tt scene r 0 ren.reflections g2 (by omega)]
  rcases ren.antialiasing with _ | _
  · simp only []
    rw [sampleFixed_color_of_zero _ hgc, Vec3.zero_divs]
  · simp only []
    rw [sampleJitter_color_of_zero hgc, Vec3.zero_divs]

theorem renderWrite_width (w : ℕ) (c : Vec3) (j i : ℕ) (img : Image) :
    (renderWrite w c j i img).width = img.width := rfl

theorem renderWrite_height (w : ℕ) (c : Vec3) (j i : ℕ) (img : Image) :
    (renderWrite w c j i img).height = img.height := rfl

theorem renderWrite_length (w : ℕ) (c : Vec3) (j i : ℕ) (img : Image) :
    (renderWrite w c j i img).data.length = img.data.length := by
  simp [renderWrite]

theorem renderWrite_get_other (w : ℕ) (c : Vec3) (j i : ℕ) (img : Image)
    {m : ℕ} (hm : m < 3 * (j * w + i) ∨ 3 * (j * w + i) + 2 < m) :
    (renderWrite w c j i img).data[m]? = img.data[m]? := by
  unfold renderWrite
  rw [List.getElem?_set_ne (by omega), List.getElem?_set_ne (by omega),
    List.getElem?_set_ne (by omega)]

theorem renderWrite_get_self (w : ℕ) (c : Vec3) (j i : ℕ) (img : Image)
    (hlen : 3 * (j * w + i) + 2 < img.data.length) :
    (renderWrite w c j i img).data[3 * (j * w + i)]? = some c.x ∧
    (renderWrite w c j i img).data[3 * (j * w + i) + 1]? = some c.y ∧
    (renderWrite w c j i img).data[3 * (j * w + i) + 2]? = some c.z := by
  unfold renderWrite
  refine ⟨?_, ?_, ?_⟩
  · rw [List.getElem?_set_ne (by omega), List.getElem?_set_ne (by omega)]
    simp [List.getElem?_set, show 3 * (j * w + i) < img.data.length by omega]
  · rw [List.getElem?_set_ne (by omega)]
    simp [List.getElem?_set, show 3 * (j * w + i) + 1 < img.data.length by omega]
  · simp [List.getElem?_set, show 3 * (j * w + i) + 2 < img.data.length by omega]

theorem rowFold_width (col1 : ℕ → Vec3) (w j : ℕ) :
    ∀ (n : ℕ) (img : Image),
      ((List.range n).foldl (fun img i => renderWrite w (col1 i) j i img)
        img).width = img.width := by
  intro n
  induction n with
  | zero => intro img; rfl
  | succ n ih =>
    intro img
    rw [List.range_succ, List.foldl_append, List.foldl_cons, List.foldl_nil,
      renderWrite_width, ih]

theorem rowFold_length (col1 : ℕ → Vec3) (w j : ℕ) :
    ∀ (n : ℕ) (img : Image),
      ((List.range n).foldl (fun img i => renderWrite w (col1 i) j i img)
        img).data.length = img.data.length := by
  intro n
  induction n with
  | zero => intro img; rfl
  | succ n ih =>
    intro img
    rw [List.range_succ, List.foldl_append, List.foldl_cons, List.foldl_nil,
      renderWrite_length, ih]

theorem rowFold_get_other (col1 : ℕ → Vec3) (w j : ℕ) {m : ℕ} :
    ∀ (n : ℕ) (img : Image), (m < 3 * (j * w) ∨ 3 * (j * w) + 3 * n ≤ m) →
      ((List.range n).foldl (fun img i => renderWrite w (col1 i) j i img)
        img).data[m]? = img.data[m]? := by
  intro n
  induction n with
  | zero => intro img _; rfl
  | succ n ih =>
    intro img hm
    rw [List.range_succ, List.foldl_append, List.foldl_cons, List.foldl_nil,
      renderWrite_get_other _ _ _ _ _ (by omega)]
    exact ih img (by omega)

theorem rowFold_get_self (col1 : ℕ → Vec3) (w j : ℕ) :
    ∀ (n : ℕ) (img : Image) (i0 : ℕ), i0 < n →
      3 * (j * w + i0) + 2 < img.data.length →
      (((List.range n).foldl (fun img i => renderWrite w (col1 i) j i img)
          img).data[3 * (j * w + i0)]? = some (col1 i0).x ∧
       ((List.range n).foldl (fun img i => renderWrite w (col1 i) j i img)
          img).data[3 * (j * w + i0) + 1]? = some (col1 i0).y ∧
       ((List.range n).foldl (fun img i => renderWrite w (col1 i) j i img)
          img).data[3 * (j * w + i0) + 2]? = some (col1 i0).z) := by
  intro n
  induction n with
  | zero => intro img i0 hi0 _; omega
  | succ n ih =>
    intro img i0 hi0 hlen
    rw [List.range_succ, List.foldl_append, List.foldl_cons, List.foldl_nil]
    by_cases hlast : i0 = n
    · subst hlast
      exact renderWrite_get_self w (col1 i0) j i0 _
        (by rw [rowFold_length]; omega)
    · have hi0n : i0 < n := by omega
      refine ⟨?_, ?_, ?_⟩ <;>
        rw [renderWrite_get_other _ _ _ _ _ (by omega)] <;>
        [exact (ih img i0 hi0n hlen).1;
         exact (ih img i0 hi0n hlen).2.1;
         exact (ih img i0 hi0n hlen).2.2]

theorem gridFold_width (col : ℕ → ℕ → Vec3) (w : ℕ) :
    ∀ (n : ℕ) (img : Image),
      ((List.range n).foldl (fun img j =>
        (List.range w).foldl (fun img i => renderWrite w (col i j) j i img)
          img) img).width = img.width := by
  intro n
  induction n with
  | zero => intro img; rfl
  | succ n ih =>
    intro img
    rw [List.range_succ, List.foldl_append, List.foldl_cons, List.foldl_nil,
      rowFold_width, ih]

theorem gridFold_height (col : ℕ → ℕ → Vec3) (w : ℕ) :
    ∀ (n : ℕ) (img : Image),
      ((List.range n).foldl (fun img j =>
        (List.range w).foldl (fun img i => renderWrite w (col i j) j i img)
          img) img).height = img.height := by
  intro n
  induction n with
  | zero => intro img; rfl
  | succ n ih =>
    intro img
    have hrow : ∀ (m : ℕ) (img2 : Image),
        ((List.range m).foldl (fun img i => renderWrite w (col i n) n i img)
          img2).height = img2.height := by
      intro m
      induction m with
      | zero => intro img2; rfl
      | succ m ih2 =>
        intro img2
        rw [List.range_succ, List.foldl_append, List.foldl_cons,
          List.foldl_nil, renderWrite_height, ih2]
    rw [List.range_succ, List.foldl_append, List.foldl_cons, List.foldl_nil,
      hrow, ih]

theorem gridFold_length (col : ℕ → ℕ → Vec3) (w : ℕ) :
    ∀ (n : ℕ) (img : Image),
      ((List.range n).foldl (fun img j =>
        (List.range w).foldl (fun img i => renderWrite w (col i j) j i img)
          img) img).data.length = img.data.length := by
  intro n
  induction n with
  | zero => intro img; rfl
  | succ n ih =>
    intro img
    rw [List.range_succ, List.foldl_append, List.foldl_cons, List.foldl_nil,
      rowFold_length, ih]

theorem gridFold_get_self (col : ℕ → ℕ → Vec3) (w : ℕ) :
    ∀ (n : ℕ) (img : Image) (j0 i0 : ℕ), j0 < n → i0 < w →
      3 * (j0 * w + i0) + 2 < img.data.length →
      (((List.range n).foldl (fun img j =>
          (List.range w).foldl (fun img i => renderWrite w (col i j) j i img)
            img) img).data[3 * (j0 * w + i0)]? = some (col i0 j0).x ∧
       ((List.range n).foldl (fun img j =>
          (List.range w).foldl (fun img i => renderWrite w (col i j) j i img)
            img) img).data[3 * (j0 * w + i0) + 1]? = some (col i0 j0).y ∧
       ((List.range n).foldl (fun img j =>
          (List.range w).foldl (fun img i => renderWrite w (col i j) j i img)
            img) img).data[3 * (j0 * w + i0) + 2]? = some (col i0 j0).z) := by
  intro n
  induction n with
  | zero => intro img j0 i0 hj0 _ _; omega
  | succ n ih =>
    intro img j0 i0 hj0 hi0 hlen
    rw [List.range_succ, List.foldl_append, List.foldl_cons, List.foldl_nil]
    by_cases hlast : j0 = n
    · subst hlast
      exact rowFold_get_self (fun i => col i j0) w j0 w _ i0 hi0
        (by rw [gridFold_length]; omega)
    · have hj0n : j0 < n := by omega
      have hbound : 3 * (j0 * w + i0) + 2 < 3 * (n * w) := by
        have h2 : (j0 + 1) * w ≤ n * w :=
          Nat.mul_le_mul_right w (by omega)
        rw [Nat.succ_mul] at h2
        omega
      refine ⟨?_, ?_, ?_⟩ <;>
        rw [rowFold_get_other (fun i => col i n) w n w _ (by omega)] <;>
        [exact (ih img j0 i0 hj0n hi0 hlen).1;
         exact (ih img j0 i0 hj0n hi0 hlen).2.1;
         exact (ih img j0 i0 hj0n hi0 hlen).2.2]

theorem render_width (ren : Renderer) (tt : TreeType) (scene : Scene)
    (cam : Camera) (rngOf : ℕ → ℕ → Rng) :
    (render ren tt scene cam rngOf).width = ren.x1 - ren.x0 :=
  gridFold_width
    (fun i j => (render_pixel ren tt scene cam (ren.x0 + i) (ren.y0 + j)
      (rngOf i j)).1)
    (ren.x1 - ren.x0) (ren.y1 - ren.y0)
    (Image.new (ren.x1 - ren.x0) (ren.y1 - ren.y0))

theorem render_height (ren : Renderer) (tt : TreeType) (scene : Scene)
    (cam : Camera) (rngOf : ℕ → ℕ → Rng) :
    (render ren tt scene cam rngOf).height = ren.y1 - ren.y0 :=
  gridFold_height
    (fun i j => (render_pixel ren tt scene cam (ren.x0 + i) (ren.y0 + j)
      (rngOf i j)).1)
    (ren.x1 - ren.x0) (ren.y1 - ren.y0)
    (Image.new (ren.x1 - ren.x0) (ren.y1 - ren.y0))

theorem render_data_length (ren : Renderer) (tt : TreeType) (scene : Scene)
    (cam : Camera) (rngOf : ℕ → ℕ → Rng) :
    (render ren tt scene cam rngOf).data.length =
      3 * (ren.x1 - ren.x0) * (ren.y1 - ren.y0) := by
  have h1 := gridFold_length
    (fun i j => (render_pixel ren tt scene cam (ren.x0 + i) (ren.y0 + j)
      (rngOf i j)).1)
    (ren.x1 - ren.x0) (ren.y1 - ren.y0)
    (Image.new (ren.x1 - ren.x0) (ren.y1 - ren.y0))
  refine h1.trans ?_
  simp [Image.new]

theorem render_get (ren : Renderer) (tt : TreeType) (scene : Scene)
    (cam : Camera) (rngOf : ℕ → ℕ → Rng) (i0 j0 : ℕ)
    (hi : i0 < ren.x1 - ren.x0) (hj : j0 < ren.y1 - ren.y0) :
    ((render ren tt scene cam rngOf).data[3 * (j0 * (ren.x1 - ren.x0) + i0)]? =
      some ((render_pixel ren tt scene cam (ren.x0 + i0) (ren.y0 + j0)
        (rngOf i0 j0)).1).x ∧
     (render ren tt scene cam rngOf).data[3 * (j0 * (ren.x1 - ren.x0) + i0) + 1]? =
      some ((render_pixel ren tt scene cam (ren.x0 + i0) (ren.y0 + j0)
        (rngOf i0 j0)).1).y ∧
     (render ren tt scene cam rngOf).data[3 * (j0 * (ren.x1 - ren.x0) + i0) + 2]? =
      some ((render_pixel ren tt scene cam (ren.x0 + i0) (ren.y0 + j0)
        (rngOf i0 j0)).1).z) := by
  refine gridFold_get_self
    (fun i j => (render_pixel ren tt scene cam (ren.x0 + i) (ren.y0 + j)
      (rngOf i j)).1)
    (ren.x1 - ren.x0) (ren.y1 - ren.y0)
    (Image.new (ren.x1 - ren.x0) (ren.y1 - ren.y0)) j0 i0 hj hi ?_
  have hL : (Image.new (ren.x1 - ren.x0) (ren.y1 - ren.y0)).data.length =
      3 * ((ren.x1 - ren.x0) * (ren.y1 - ren.y0)) := by
    simp [Image.new, Nat.mul_assoc]
  rw [hL]
  have h2 : (j0 + 1) * (ren.x1 - ren.x0) ≤ (ren.y1 - ren.y0) * (ren.x1 - ren.x0) :=
    Nat.mul_le_mul_right (ren.x1 - ren.x0) (by omega)
  rw [Nat.succ_mul] at h2
  have h3 : (ren.y1 - ren.y0) * (ren.x1 - ren.x0) =
      (ren.x1 - ren.x0) * (ren.y1 - ren.y0) := Nat.mul_comm _ _
  omega

/-- `Translation::hit`, modelled from the spec (§3, §4.1): transform the
incoming ray into child-local space by subtracting the offset from its
origin, delegate to the child on the same window, and translate the
resulting hit point back into world space by adding the offset; the
normal and the parameter `t` are unaffected by a pure translation. -/
def translationHit (childHit : Ray → ℚ → ℚ → Option Hit) (offset : Vec3)
    (r : Ray) (tmin tmax : ℚ) : Option Hit :=
  (childHit ⟨r.origin.sub offset, r.direction⟩ tmin tmax).map
    (fun h => ⟨h.point.add offset, h.normal, h.t⟩)

/-- C1: for every fixed Scene (any Actor set, including empty) and
Camera, with antialiasing off and sampling = 1, rendering with the
Linear, Binary and Oct tree variants produces pixel-identical images: the
images are equal and the summed per-pixel color-difference norm is
exactly 0, because for any ray (and any query window) all three variants
report the same nearest Hit (same Actor, same `t`). -/
theorem claim_C1 (ren : Renderer) (scene : Scene) (cam : Camera)
    (rngOf : ℕ → ℕ → Rng) (haa : ren.antialiasing = false)
    (hs : ren.sampling = 1) :
    (∀ (r : Ray) (tmin tmax : ℚ),
      queryBinary (indexActors scene.actors) r tmin tmax =
        queryLinear (indexActors scene.actors) r tmin tmax ∧
      queryOct (indexActors scene.actors) r tmin tmax =
        queryLinear (indexActors scene.actors) r tmin tmax) ∧
    render ren .binary scene cam rngOf = render ren .linear scene cam rngOf ∧
    render ren .oct scene cam rngOf = render ren .linear scene cam rngOf ∧
    imageDiff (render ren .linear scene cam rngOf)
      (render ren .binary scene cam rngOf) = 0 ∧
    imageDiff (render ren .linear scene cam rngOf)
      (render ren .oct scene cam rngOf) = 0 := by
  have hrender : ∀ tt : TreeType,
      render ren tt scene cam rngOf = render ren .linear scene cam rngOf := by
    intro tt
    have hq : sceneQuery tt scene = sceneQuery .linear scene :=
      funext (fun r => sceneQuery_eq tt scene r)
    simp only [render, render_pixel, get_color, hq]
  refine ⟨?_, hrender .binary, hrender .oct, ?_, ?_⟩
  · intro r tmin tmax
    exact ⟨queryBinary_eq_queryLinear _ (indexActors_pairwise _) r tmin tmax,
      queryOct_eq_queryLinear _ (indexActors_pairwise _) r tmin tmax⟩
  · rw [hrender .binary]
    exact imageDiff_self _
  · rw [hrender .oct]
    exact imageDiff_self _

/-- C2: for every scene and ray, if the ray intersects no Actor (in
particular whenever the Actor set is empty) and the recursion ceiling has
not been reached, `get_color` returns exactly the Scene's constant
background color. -/
theorem claim_C2 (tt : TreeType) (scene : Scene) (g : Rng) :
    (∀ (r : Ray) (depth maxDepth : ℕ), depth < maxDepth →
      sceneQuery tt scene r = none →
      get_color tt scene r depth maxDepth g = (scene.background, g)) ∧
    (∀ r : Ray, scene.actors = [] → sceneQuery tt scene r = none) := by
  constructor
  · intro r depth maxDepth hd hq
    unfold get_color
    obtain ⟨k, hk⟩ : ∃ k, maxDepth - depth = k + 1 :=
      ⟨maxDepth - depth - 1, by omega⟩
    rw [hk]
    simp only [getColorAux, hq]
  · intro r hact
    rw [sceneQuery_eq]
    simp only [sceneQuery, hact]
    rfl

/-- C3: `get_color` returns black whenever `depth ≥ max_depth` (so with
`max_depth = 0` every call returns black regardless of scene content),
and a Renderer constructed with reflections = 0 produces an all-black
per-pixel color. -/
theorem claim_C3 (tt : TreeType) (scene : Scene) (g : Rng) :
    (∀ (r : Ray) (depth maxDepth : ℕ), maxDepth ≤ depth →
      get_color tt scene r depth maxDepth g = (Vec3.zero, g)) ∧
    (∀ (ren : Renderer) (cam : Camera) (i j : ℕ), ren.reflections = 0 →
      (render_pixel ren tt scene cam i j g).1 = Vec3.zero) :=
  ⟨fun r depth maxDepth h => get_color_ceiling tt scene r depth maxDepth g h,
   fun ren cam i j h => render_pixel_black ren tt scene cam i j g h⟩

/-- C4: `render_pixel` returns the sum of `n` calls to `Scene.get_color`
divided by `n`, where `n` is the configured sampling count with 0 treated
as 1; the divisor is at least 1, so `render_pixel` never divides by a
zero sample count. -/
theorem claim_C4 (ren : Renderer) (tt : TreeType) (scene : Scene)
    (cam : Camera) (i j : ℕ) (g : Rng) :
    (render_pixel ren tt scene cam i j g).1 =
      (vsum (renderPixelSamples ren tt scene cam i j g)).divs (ren.nEff : ℚ) ∧
    (renderPixelSamples ren tt scene cam i j g).length = ren.nEff ∧
    ren.nEff = max ren.sampling 1 ∧
    1 ≤ ren.nEff :=
  ⟨render_pixel_avg ren tt scene cam i j g,
   renderPixelSamples_length ren tt scene cam i j g,
   Renderer.nEff_eq_max ren,
   Renderer.one_le_nEff ren⟩

/-- C5: with antialiasing off, a pixel at absolute coordinates `(i, j)`
is mapped to normalized viewport coordinates `u = 2·(i/width) − 1` and
`v = 2·(j/height) − 1` (the Renderer's stored virtual-frame dimensions)
before `Camera.get_ray` is called, and for `i ∈ [0, width]`,
`j ∈ [0, height]` the resulting `u`, `v` lie in `[-1, 1]`. -/
theorem claim_C5 (ren : Renderer) (cam : Camera) (i j : ℕ) (g : Rng)
    (haa : ren.antialiasing = false) (hw : 0 < ren.width)
    (hh : 0 < ren.height) (hi : i ≤ ren.width) (hj : j ≤ ren.height) :
    ren.get_ray cam i j g =
      (cam (2 * ((i : ℚ) / (ren.width : ℚ)) - 1)
           (2 * ((j : ℚ) / (ren.height : ℚ)) - 1), g) ∧
    -1 ≤ 2 * ((i : ℚ) / (ren.width : ℚ)) - 1 ∧
    2 * ((i : ℚ) / (ren.width : ℚ)) - 1 ≤ 1 ∧
    -1 ≤ 2 * ((j : ℚ) / (ren.height : ℚ)) - 1 ∧
    2 * ((j : ℚ) / (ren.height : ℚ)) - 1 ≤ 1 := by
  have hwq : (0 : ℚ) < (ren.width : ℚ) := by exact_mod_cast hw
  have hhq : (0 : ℚ) < (ren.height : ℚ) := by exact_mod_cast hh
  have hiq : (i : ℚ) ≤ (ren.width : ℚ) := by exact_mod_cast hi
  have hjq : (j : ℚ) ≤ (ren.height : ℚ) := by exact_mod_cast hj
  have hdi0 : (0 : ℚ) ≤ (i : ℚ) / (ren.width : ℚ) :=
    div_nonneg (Nat.cast_nonneg i) (le_of_lt hwq)
  have hdi1 : (i : ℚ) / (ren.width : ℚ) ≤ 1 := by
    rw [div_le_one hwq]
    exact hiq
  have hdj0 : (0 : ℚ) ≤ (j : ℚ) / (ren.height : ℚ) :=
    div_nonneg (Nat.cast_nonneg j) (le_of_lt hhq)
  have hdj1 : (j : ℚ) / (ren.height : ℚ) ≤ 1 := by
    rw [div_le_one hhq]
    exact hjq
  refine ⟨?_, by linarith, by linarith, by linarith, by linarith⟩
  unfold Renderer.get_ray
  rw [haa]

/-- C6: when the antialiasing flag is false, the ray traced for a pixel
is computed once, deterministically from `(i, j, width, height)` with no
random jitter, and that identical ray is passed to `Scene.get_color` for
all sampling iterations: two runs with different random-source states
pass the same rays. -/
theorem claim_C6 (ren : Renderer) (tt : TreeType) (scene : Scene)
    (cam : Camera) (i j : ℕ) (g1 g2 : Rng)
    (haa : ren.antialiasing = false) :
    (render_pixel ren tt scene cam i j g1).2.2 =
      (render_pixel ren tt scene cam i j g2).2.2 ∧
    (render_pixel ren tt scene cam i j g1).2.2 =
      List.replicate ren.nEff
        (cam (2 * ((i : ℚ) / (ren.width : ℚ)) - 1)
             (2 * ((j : ℚ) / (ren.height : ℚ)) - 1)) := by
  have key : ∀ g : Rng, (render_pixel ren tt scene cam i j g).2.2 =
      List.replicate ren.nEff
        (cam (2 * ((i : ℚ) / (ren.width : ℚ)) - 1)
             (2 * ((j : ℚ) / (ren.height : ℚ)) - 1)) := by
    intro g
    simp only [render_pixel, Renderer.get_ray, haa]
    rw [sampleFixed_trace]
    rw [List.nil_append]
  exact ⟨(key g1).trans (key g2).symm, key g1⟩

/-- C7: for a Renderer with `x0 ≤ x1` and `y0 ≤ y1`, `render` returns an
Image of width `x1 − x0` and height `y1 − y0`, storing row-major
per-channel color triples: rectangle-relative pixel `(i, j)` holds the
color of `render_pixel (x0 + i) (y0 + j)` at data indices
`3·(j·(x1−x0) + i)` through `3·(j·(x1−x0) + i) + 2`. -/
theorem claim_C7 (ren : Renderer) (tt : TreeType) (scene : Scene)
    (cam : Camera) (rngOf : ℕ → ℕ → Rng)
    (hx : ren.x0 ≤ ren.x1) (hy : ren.y0 ≤ ren.y1) :
    (render ren tt scene cam rngOf).width = ren.x1 - ren.x0 ∧
    (render ren tt scene cam rngOf).height = ren.y1 - ren.y0 ∧
    ∀ i j : ℕ, i < ren.x1 - ren.x0 → j < ren.y1 - ren.y0 →
      ((render ren tt scene cam rngOf).data[3 * (j * (ren.x1 - ren.x0) + i)]? =
        some ((render_pixel ren tt scene cam (ren.x0 + i) (ren.y0 + j)
          (rngOf i j)).1).x ∧
       (render ren tt scene cam rngOf).data[3 * (j * (ren.x1 - ren.x0) + i) + 1]? =
        some ((render_pixel ren tt scene cam (ren.x0 + i) (ren.y0 + j)
          (rngOf i j)).1).y ∧
       (render ren tt scene cam rngOf).data[3 * (j * (ren.x1 - ren.x0) + i) + 2]? =
        some ((render_pixel ren tt scene cam (ren.x0 + i) (ren.y0 + j)
          (rngOf i j)).1).z) :=
  ⟨render_width ren tt scene cam rngOf,
   render_height ren tt scene cam rngOf,
   fun i j hi hj => render_get ren tt scene cam rngOf i j hi hj⟩

/-- C8: `Translation(child, offset).hit(ray, t_min, t_max)` equals the
child's hit on the ray with origin shifted by `−offset`, with the
returned Hit's point shifted back by `+offset` and the normal and `t`
unchanged; it returns no hit exactly when the child returns no hit. -/
theorem claim_C8 (childHit : Ray → ℚ → ℚ → Option Hit) (offset : Vec3)
    (r : Ray) (tmin tmax : ℚ) (hw : tmin < tmax) :
    (∀ h : Hit, translationHit childHit offset r tmin tmax = some h ↔
      ∃ h0 : Hit,
        childHit ⟨r.origin.sub offset, r.direction⟩ tmin tmax = some h0 ∧
        h.point = h0.point.add offset ∧ h.normal = h0.normal ∧
        h.t = h0.t) ∧
    (translationHit childHit offset r tmin tmax = none ↔
      childHit ⟨r.origin.sub offset, r.direction⟩ tmin tmax = none) := by
  constructor
  · intro h
    unfold translationHit
    rw [Option.map_eq_some']
    constructor
    · rintro ⟨h0, hh0, hmk⟩
      exact ⟨h0, hh0, by rw [← hmk], by rw [← hmk], by rw [← hmk]⟩
    · rintro ⟨h0, hh0, hp, hn, ht⟩
      refine ⟨h0, hh0, ?_⟩
      cases h with
      | mk p n t =>
        simp only [] at hp hn ht
        rw [hp, hn, ht]
  · unfold translationHit
    exact Option.map_eq_none'

/-- C9: `Image::new(width, height)` returns an Image whose data vector
has length exactly `3·width·height` with every element zero, and `render`
only writes within that length, so the produced Image's buffer length is
`3 · width · height` of the produced Image. -/
theorem claim_C9 (w h : ℕ) (ren : Renderer) (tt : TreeType) (scene : Scene)
    (cam : Camera) (rngOf : ℕ → ℕ → Rng) :
    (Image.new w h).data.length = 3 * w * h ∧
    (∀ q ∈ (Image.new w h).data, q = 0) ∧
    (render ren tt scene cam rngOf).data.length =
      3 * (render ren tt scene cam rngOf).width *
        (render ren tt scene cam rngOf).height := by
  refine ⟨?_, ?_, ?_⟩
  · simp [Image.new]
  · intro q hq
    exact List.eq_of_mem_replicate hq
  · rw [render_width, render_height, render_data_length]

/-- C10: `render_pixel` never reads the rectangle bounds: two Renderers
agreeing on width, height, sampling, reflections and antialiasing but
differing in rectangle bounds compute the same color (and trace and
random state) for the same absolute pixel and random draws. -/
theorem claim_C10 (r1 r2 : Renderer) (tt : TreeType) (scene : Scene)
    (cam : Camera) (i j : ℕ) (g : Rng)
    (hw : r1.width = r2.width) (hh : r1.height = r2.height)
    (hs : r1.sampling = r2.sampling) (hr : r1.reflections = r2.reflections)
    (ha : r1.antialiasing = r2.antialiasing) :
    render_pixel r1 tt scene cam i j g = render_pixel r2 tt scene cam i j g := by
  rcases r1 with ⟨x0a, x1a, y0a, y1a, wa, ha2, sa, ra, aa⟩
  rcases r2 with ⟨x0b, x1b, y0b, y1b, wb, hb2, sb, rb, ab⟩
  dsimp only at hw hh hs hr ha
  subst hw
  subst hh
  subst hs
  subst hr
  subst ha
  rfl

/-- Concrete 1×1 renderer used by the witnesses (sampling 1, one
reflection, antialiasing off). -/
def demoRenderer : Renderer := Renderer.new 0 1 0 1 1 1 1 1 false

/-- Concrete renderer with zero reflections. -/
def demoRendererZero : Renderer := Renderer.new 0 1 0 1 1 1 1 0 false

/-- Concrete renderer equal to `demoRenderer` except for its rectangle
bounds. -/
def demoRendererShift : Renderer := Renderer.new 2 3 4 5 1 1 1 1 false

/-- Concrete empty scene with black background. -/
def demoScene : Scene := ⟨[], ⟨0, 0, 0⟩⟩

/-- Concrete camera. -/
def demoCam : Camera := fun u v => ⟨⟨0, 0, 0⟩, ⟨u, v, 1⟩⟩

/-- Concrete per-pixel random streams (all empty). -/
def demoRng : ℕ → ℕ → Rng := fun _ _ => []

/-- Concrete ray. -/
def demoRay : Ray := ⟨⟨0, 0, 0⟩, ⟨0, 0, 1⟩⟩

theorem claim_C1_witness :
    (∀ (r : Ray) (tmin tmax : ℚ),
      queryBinary (indexActors demoScene.actors) r tmin tmax =
        queryLinear (indexActors demoScene.actors) r tmin tmax ∧
      queryOct (indexActors demoScene.actors) r tmin tmax =
        queryLinear (indexActors demoScene.actors) r tmin tmax) ∧
    render demoRenderer .binary demoScene demoCam demoRng =
      render demoRenderer .linear demoScene demoCam demoRng ∧
    render demoRenderer .oct demoScene demoCam demoRng =
      render demoRenderer .linear demoScene demoCam demoRng ∧
    imageDiff (render demoRenderer .linear demoScene demoCam demoRng)
      (render demoRenderer .binary demoScene demoCam demoRng) = 0 ∧
    imageDiff (render demoRenderer .linear demoScene demoCam demoRng)
      (render demoRenderer .oct demoScene demoCam demoRng) = 0 :=
  claim_C1 demoRenderer demoScene demoCam demoRng rfl rfl

theorem claim_C2_witness :
    get_color .linear demoScene demoRay 0 1 [] = (demoScene.background, []) ∧
    sceneQuery .linear demoScene demoRay = none :=
  ⟨(claim_C2 .linear demoScene []).1 demoRay 0 1 (by decide)
     ((claim_C2 .linear demoScene []).2 demoRay rfl),
   (claim_C2 .linear demoScene []).2 demoRay rfl⟩

theorem claim_C3_witness :
    get_color .linear demoScene demoRay 2 1 [] = (Vec3.zero, []) ∧
    (render_pixel demoRendererZero .linear demoScene demoCam 0 0 []).1 =
      Vec3.zero :=
  ⟨(claim_C3 .linear demoScene []).1 demoRay 2 1 (by decide),
   (claim_C3 .linear demoScene []).2 demoRendererZero demoCam 0 0 rfl⟩

theorem claim_C5_witness :
    demoRenderer.get_ray demoCam 0 0 [] =
      (demoCam (2 * (((0 : ℕ) : ℚ) / (demoRenderer.width : ℚ)) - 1)
               (2 * (((0 : ℕ) : ℚ) / (demoRenderer.height : ℚ)) - 1), []) ∧
    -1 ≤ 2 * (((0 : ℕ) : ℚ) / (demoRenderer.width : ℚ)) - 1 ∧
    2 * (((0 : ℕ) : ℚ) / (demoRenderer.width : ℚ)) - 1 ≤ 1 ∧
    -1 ≤ 2 * (((0 : ℕ) : ℚ) / (demoRenderer.height : ℚ)) - 1 ∧
    2 * (((0 : ℕ) : ℚ) / (demoRenderer.height : ℚ)) - 1 ≤ 1 :=
  claim_C5 demoRenderer demoCam 0 0 [] rfl (by decide) (by decide)
    (by decide) (by decide)

theorem claim_C6_witness :
    (render_pixel demoRenderer .linear demoScene demoCam 0 0 []).2.2 =
      (render_pixel demoRenderer .linear demoScene demoCam 0 0
        [1/2, 1/3]).2.2 ∧
    (render_pixel demoRenderer .linear demoScene demoCam 0 0 []).2.2 =
      List.replicate demoRenderer.nEff
        (demoCam (2 * (((0 : ℕ) : ℚ) / (demoRenderer.width : ℚ)) - 1)
                 (2 * (((0 : ℕ) : ℚ) / (demoRenderer.height : ℚ)) - 1)) :=
  claim_C6 demoRenderer .linear demoScene demoCam 0 0 [] [1/2, 1/3] rfl

theorem claim_C7_witness :
    (render demoRenderer .linear demoScene demoCam demoRng).width =
      demoRenderer.x1 - demoRenderer.x0 ∧
    (render demoRenderer .linear demoScene demoCam demoRng).height =
      demoRenderer.y1 - demoRenderer.y0 ∧
    ∀ i j : ℕ, i < demoRenderer.x1 - demoRenderer.x0 →
      j < demoRenderer.y1 - demoRenderer.y0 →
      ((render demoRenderer .linear demoScene demoCam demoRng).data[
          3 * (j * (demoRenderer.x1 - demoRenderer.x0) + i)]? =
        some ((render_pixel demoRenderer .linear demoScene demoCam
          (demoRenderer.x0 + i) (demoRenderer.y0 + j) (demoRng i j)).1).x ∧
       (render demoRenderer .linear demoScene demoCam demoRng).data[
          3 * (j * (demoRenderer.x1 - demoRenderer.x0) + i) + 1]? =
        some ((render_pixel demoRenderer .linear demoScene demoCam
          (demoRenderer.x0 + i) (demoRenderer.y0 + j) (demoRng i j)).1).y ∧
       (render demoRenderer .linear demoScene demoCam demoRng).data[
          3 * (j * (demoRenderer.x1 - demoRenderer.x0) + i) + 2]? =
        some ((render_pixel demoRenderer .linear demoScene demoCam
          (demoRenderer.x0 + i) (demoRenderer.y0 + j) (demoRng i j)).1).z) :=
  claim_C7 demoRenderer .linear demoScene demoCam demoRng (by decide)
    (by decide)

theorem claim_C8_witness :
    (∀ h : Hit,
      translationHit (fun _ _ _ => none) ⟨1, 2, 3⟩ demoRay 0 1 = some h ↔
      ∃ h0 : Hit,
        (fun (_ : Ray) (_ _ : ℚ) => (none : Option Hit))
          ⟨demoRay.origin.sub ⟨1, 2, 3⟩, demoRay.direction⟩ 0 1 = some h0 ∧
        h.point = h0.point.add ⟨1, 2, 3⟩ ∧ h.normal = h0.normal ∧
        h.t = h0.t) ∧
    (translationHit (fun _ _ _ => none) ⟨1, 2, 3⟩ demoRay 0 1 = none ↔
      (fun (_ : Ray) (_ _ : ℚ) => (none : Option Hit))
        ⟨demoRay.origin.sub ⟨1, 2, 3⟩, demoRay.direction⟩ 0 1 = none) :=
  claim_C8 (fun _ _ _ => none) ⟨1, 2, 3⟩ demoRay 0 1 (by norm_num)

theorem claim_C10_witness :
    render_pixel demoRenderer .linear demoScene demoCam 0 0 [] =
      render_pixel demoRendererShift .linear demoScene demoCam 0 0 [] :=
  claim_C10 demoRenderer demoRendererShift .linear demoScene demoCam 0 0 []
    rfl rfl rfl rfl rfl

end RayTracer
